import Mathlib

/-!
Verification development for the TradingJournal dashboard (`src/app.py`).

The file embeds the two stages of the app's data pipeline:

* the record loader `load_notion_data` (app.py lines 84-146), modelled over a
  structured rendering of the Notion page properties the code accesses;
* the metrics transformer `process_dataframe` (app.py lines 159-181), with
  `df.sort_values(by='Date')` embedded as the sorting algorithm pandas actually
  runs for the default `kind='quicksort'`: numpy's introsort for argsort
  (`npysort/quicksort.c.src`, `aquicksort_`), including its median-of-3
  partition, its insertion-sort cutoff at `SMALL_QUICKSORT = 15`, and its
  heapsort fallback (`aheapsort_`) guarded by the shared depth budget
  `2 * npy_get_msb(num)`.  The C routine sorts an index array and only ever
  compares keys and moves whole entries, so it is embedded here directly as a
  row-moving sort keyed by the date column;

plus the chart-branch fragments (colors, monthly group-by) that the claims
mention.  Numeric amounts are modelled as `ℚ` (the spec's "signed decimal
amount"); timestamps as seconds since the epoch (`ℤ`), matching the linear
order numpy uses on `datetime64` values.
-/

namespace TradingJournal

/-! ## Loader data model (the Notion page shape accessed by app.py 98-135) -/

/-- Value of a Notion date property: `{"start": ..., "end": ...}` where either
field may be null.  (app.py line 118-121 reads `date_prop.get("end")` and
`date_prop.get("start")`.) -/
structure DateRange where
  startDate : Option String
  endDate : Option String
deriving DecidableEq, Repr, Inhabited

/-- The properties of one returned page, as the loader accesses them.
`nameTitle`/`symbolTitle` are the `plain_text` entries of the `title` arrays of
the "Name" / "Symbol" properties (`none` when the property is absent);
`pnlNumber` is the `number` of "P&L" (`none` when the key is absent or the
value null — both resolve to 0 in the code); `tradeDate` is
`props.get("Trade Date", {}).get("date", None)`; `resultProp` stands for any
result-like column the source row may carry — the loader never reads it. -/
structure NotionPage where
  nameTitle : Option (List String)
  symbolTitle : Option (List String)
  pnlNumber : Option ℚ
  tradeDate : Option DateRange
  resultProp : Option String
deriving DecidableEq, Repr, Inhabited

/-- One loaded record, the dict appended at app.py lines 130-135.  The date is
kept as the loader produced it: an `Option String`, because
`date_prop.get("end") or date_prop.get("start")` can evaluate to `None`. -/
structure TradeRecord where
  symbol : String
  date : Option String
  pnl : ℚ
  result : String
deriving DecidableEq, Repr, Inhabited

/-- Python's `a or b` on the loader's date strings: `a` unless `a` is falsy
(`None` or the empty string). -/
def pyOr (a b : Option String) : Option String :=
  match a with
  | some s => if s = "" then b else some s
  | none => b

/-- Symbol resolution, app.py lines 105-109: start from `"Unknown"`, take
`props["Name"]["title"][0]["plain_text"]` when the "Name" title array is
non-empty, else the same for "Symbol". -/
def resolveSymbol (nameT symbolT : Option (List String)) : String :=
  match nameT with
  | some (t :: _) => t
  | _ =>
    match symbolT with
    | some (t :: _) => t
    | _ => "Unknown"

/-- Result classification, app.py lines 127-128:
`result = "Win" if pnl > 0 else "Loss"` then `if pnl == 0: result = "Break Even"`. -/
def classifyResult (pnl : ℚ) : String :=
  let r := if pnl > 0 then "Win" else "Loss"
  if pnl = 0 then "Break Even" else r

/-- Body of the per-page loop, app.py lines 101-135.  `none` means the row is
skipped (the `continue` at line 123: no resolvable date property). -/
def parseRow (page : NotionPage) : Option TradeRecord :=
  let symbol := resolveSymbol page.nameTitle page.symbolTitle
  let pnl := page.pnlNumber.getD 0
  match page.tradeDate with
  | none => none
  | some dr =>
    some { symbol := symbol
           date := pyOr dr.endDate dr.startDate
           pnl := pnl
           result := classifyResult pnl }

/-- Outcome of contacting Notion, as distinguished by app.py 85-146:
a connectivity/exception failure (line 144), a database without data sources
(line 88), or a successful query returning pages. -/
inductive NotionResponse where
  | failure
  | noDataSource
  | ok (pages : List NotionPage)

/-- The loader, app.py lines 84-146: on failure paths it returns `[]`; on
success it folds the per-page extraction over the results, skipping rows
without a date property. -/
def load_notion_data : NotionResponse → List TradeRecord
  | .failure => []
  | .noDataSource => []
  | .ok pages => pages.filterMap parseRow

/-! ## The sort used by `df.sort_values(by='Date')`

pandas' default `kind='quicksort'` calls numpy's argsort introsort.  The
algorithm below is a direct transcription of `aquicksort_`/`aheapsort_` from
numpy's `npysort/quicksort.c.src` and `heapsort.c.src`, specialised from an
index-array sort to directly moving the keyed rows (equivalent, since the C
code moves indices exactly when it would move the corresponding rows and
compares nothing but keys).  Loops are given explicit fuel large enough to
cover every reachable iteration count; lemmas below discharge the fuel. -/

/-- `SMALL_QUICKSORT` from numpy npysort: segments of size ≤ 16 are insertion
sorted (`(pr - pl) > SMALL_QUICKSORT` guards partitioning). -/
def smallQuicksort : Nat := 15

section NumpySort

variable {α : Type} {κ : Type} [Inhabited α] [LinearOrder κ]

/-- Total list indexing with the `Inhabited` default out of bounds. -/
def lget (l : List α) (i : Nat) : α := (l[i]?).getD default

/-- Swap the entries at `i` and `j` (the C `INTP_SWAP`). -/
def lswap (l : List α) (i j : Nat) : List α := (l.set i (lget l j)).set j (lget l i)

/-- The C scan `do ++pi; while (v[*pi] < vp)`, entered at the pre-incremented
index: advance while the key is strictly below the pivot key. -/
def scanUp (key : α → κ) (kp : κ) (l : List α) : Nat → Nat → Nat
  | 0, i => i
  | fuel + 1, i => if key (lget l i) < kp then scanUp key kp l fuel (i + 1) else i

/-- The C scan `do --pj; while (vp < v[*pj])`, entered at the pre-decremented
index: retreat while the key is strictly above the pivot key. -/
def scanDown (key : α → κ) (kp : κ) (l : List α) : Nat → Nat → Nat
  | 0, j => j
  | fuel + 1, j => if kp < key (lget l j) then scanDown key kp l fuel (j - 1) else j

/-- The partition exchange loop of `aquicksort_`: scan up from `pi+1`, down
from `pj-1`, stop when the scans cross, otherwise swap and continue. -/
def partLoop (key : α → κ) (kp : κ) (hi : Nat) : Nat → List α → Nat → Nat → List α × Nat
  | 0, l, pi, _ => (l, pi)
  | fuel + 1, l, pi, pj =>
    let pi' := scanUp key kp l hi (pi + 1)
    let pj' := scanDown key kp l hi (pj - 1)
    if pj' ≤ pi' then (l, pi')
    else partLoop key kp hi fuel (lswap l pi' pj') pi' pj'

/-- The three conditional swaps of `aquicksort_`'s median-of-3 pivot
selection: afterwards the keys at `lo`, `mid`, `hi` are in order. -/
def median3 (key : α → κ) (l : List α) (lo mid hi : Nat) : List α :=
  let l1 := if key (lget l mid) < key (lget l lo) then lswap l mid lo else l
  let l2 := if key (lget l1 hi) < key (lget l1 mid) then lswap l1 hi mid else l1
  if key (lget l2 mid) < key (lget l2 lo) then lswap l2 mid lo else l2

/-- One partition step of `aquicksort_` on the segment `[lo, hi]`:
median-of-3 pivot selection on `lo`, `mid`, `hi`, pivot parked at `hi-1`,
exchange loop, pivot swapped into its final place `p`. -/
def apartition (key : α → κ) (l : List α) (lo hi : Nat) : List α × Nat :=
  let mid := lo + (hi - lo) / 2
  let l3 := median3 key l lo mid hi
  let kp := key (lget l3 mid)
  let l4 := lswap l3 mid (hi - 1)
  let r := partLoop key kp hi (hi - lo) l4 lo (hi - 1)
  (lswap r.1 r.2 (hi - 1), r.2)

/-- The inner shift of the C insertion sort: move entries one slot right while
they are strictly greater than the value being inserted, then place it. -/
def shiftIns (key : α → κ) (lo : Nat) (vi : α) : Nat → List α → Nat → List α
  | 0, l, j => l.set j vi
  | fuel + 1, l, j =>
    if lo < j ∧ key vi < key (lget l (j - 1)) then
      shiftIns key lo vi fuel (l.set j (lget l (j - 1))) (j - 1)
    else l.set j vi

/-- The outer loop of the C insertion sort over `pi = lo+1 .. hi`. -/
def insLoop (key : α → κ) (lo hi : Nat) : Nat → List α → Nat → List α
  | 0, l, _ => l
  | fuel + 1, l, i =>
    if i ≤ hi then insLoop key lo hi fuel (shiftIns key lo (lget l i) i l i) (i + 1) else l

/-- Insertion sort of the segment `[lo, hi]` (the tail of `aquicksort_`'s
iteration, run for segments of size ≤ `SMALL_QUICKSORT + 1`). -/
def insertionRange (key : α → κ) (l : List α) (lo hi : Nat) : List α :=
  insLoop key lo hi (hi + 1) l (lo + 1)

/-- The sift of `aheapsort_` (hole-moving variant): 1-based heap index `k`
maps to list position `lo + k - 1`; `n` is the heap size; descend to the
larger child while it exceeds `tmp`, then drop `tmp` into the hole. -/
def siftDown (key : α → κ) (lo n : Nat) (tmp : α) : Nat → List α → Nat → Nat → List α
  | 0, l, i, _ => l.set (lo + i - 1) tmp
  | fuel + 1, l, i, j =>
    if j ≤ n then
      let j' := if j < n ∧ key (lget l (lo + j - 1)) < key (lget l (lo + j)) then j + 1 else j
      if key tmp < key (lget l (lo + j' - 1)) then
        siftDown key lo n tmp fuel (l.set (lo + i - 1) (lget l (lo + j' - 1))) j' (j' + j')
      else l.set (lo + i - 1) tmp
    else l.set (lo + i - 1) tmp

/-- Heap construction of `aheapsort_`: sift the nodes `n/2, n/2 - 1, …, 1`. -/
def heapify (key : α → κ) (lo n : Nat) : Nat → List α → List α
  | 0, l => l
  | k + 1, l =>
    heapify key lo n k (siftDown key lo n (lget l (lo + k)) (n + 1) l (k + 1) (2 * (k + 1)))

/-- Extraction phase of `aheapsort_`: while the heap has ≥ 2 entries, move the
root to the end, shrink, and sift the displaced last entry from the root. -/
def extractLoop (key : α → κ) (lo : Nat) : Nat → List α → List α
  | 0, l => l
  | 1, l => l
  | m + 2, l =>
    let tmp := lget l (lo + m + 1)
    let l1 := l.set (lo + m + 1) (lget l lo)
    extractLoop key lo (m + 1) (siftDown key lo (m + 1) tmp (m + 2) l1 1 2)

/-- `aheapsort_` on the segment `[lo, hi]` (the introsort depth-limit
fallback). -/
def heapsortRange (key : α → κ) (l : List α) (lo hi : Nat) : List α :=
  let n := hi + 1 - lo
  extractLoop key lo n (heapify key lo n (n / 2) l)

/-- The driver of `aquicksort_`.  The C routine's explicit stack processes the
smaller partition immediately and pops the larger one afterwards; that is the
recursion below, threading the shared depth budget `dl` (decremented once per
`depth_limit-- < 0` test) through in processing order.  `fuel` bounds the
recursion depth and is discharged by `npSortBy`. -/
def qsortRec (key : α → κ) : Nat → List α → Nat → Nat → Int → List α × Int
  | 0, l, _, _, dl => (l, dl)
  | fuel + 1, l, lo, hi, dl =>
    if hi - lo ≤ smallQuicksort then (insertionRange key l lo hi, dl)
    else if dl < 0 then (heapsortRange key l lo hi, dl - 1)
    else
      let pr := apartition key l lo hi
      if pr.2 - lo < hi - pr.2 then
        let r1 := qsortRec key fuel pr.1 lo (pr.2 - 1) (dl - 1)
        qsortRec key fuel r1.1 (pr.2 + 1) hi r1.2
      else
        let r1 := qsortRec key fuel pr.1 (pr.2 + 1) hi (dl - 1)
        qsortRec key fuel r1.1 lo (pr.2 - 1) r1.2

/-- numpy's `aquicksort_` on a whole list keyed by `key`: the sort pandas runs
for `sort_values(by=..., kind='quicksort')`.  The depth budget is
`2 * npy_get_msb(num) = 2 * ⌊log₂ num⌋`. -/
def npSortBy (key : α → κ) (l : List α) : List α :=
  if l.isEmpty then l
  else (qsortRec key l.length l 0 (l.length - 1) (2 * (Nat.log2 l.length : Int))).1

end NumpySort

/-! ## Timestamps, calendar and display formatting -/

/-- Timestamps are seconds since the epoch; one day of seconds. -/
def secondsPerDay : Int := 86400

/-- pandas `Series.dt.normalize` (app.py line 163): truncate the timestamp to
midnight, i.e. floor to the containing day.  (`%` on `ℤ` is `Int.emod`, so
this floors for pre-epoch timestamps too, as pandas does.) -/
def pdNormalize (t : Int) : Int := t - t % secondsPerDay

/-- Day number (days since the epoch, floored) of a timestamp. -/
def dayIndex (t : Int) : Int := t / secondsPerDay

/-- Civil calendar date `(year, month, day)` of a day number, the arithmetic
behind `strftime`; months are 1..12. -/
def civilFromDays (z : Int) : Int × Nat × Nat :=
  let z' := z + 719468
  let era := z' / 146097
  let doe := (z' % 146097).toNat
  let yoe := (doe - doe / 1460 + doe / 36524 - doe / 146096) / 365
  let doy := doe - (365 * yoe + yoe / 4 - yoe / 100)
  let mp := (5 * doy + 2) / 153
  let d := doy - (153 * mp + 2) / 5 + 1
  let m := if mp < 10 then mp + 3 else mp - 9
  (era * 400 + (yoe : Int) + (if m ≤ 2 then 1 else 0), m, d)

/-- Two-digit zero padding for month numbers. -/
def pad2 (n : Nat) : String := if n < 10 then "0" ++ toString n else toString n

/-- `strftime('%Y-%m')` of a timestamp (app.py line 179, the `Month_Sort`
column). -/
def monthSortOf (t : Int) : String :=
  let c := civilFromDays (dayIndex t)
  toString c.1 ++ "-" ++ pad2 c.2.1

/-- English month abbreviations for `%b`. -/
def monthAbbrev : Nat → String
  | 1 => "Jan" | 2 => "Feb" | 3 => "Mar" | 4 => "Apr" | 5 => "May" | 6 => "Jun"
  | 7 => "Jul" | 8 => "Aug" | 9 => "Sep" | 10 => "Oct" | 11 => "Nov" | 12 => "Dec"
  | _ => ""

/-- `strftime('%Y %b')` of a timestamp (app.py line 180, the `Month` column). -/
def monthLabelOf (t : Int) : String :=
  let c := civilFromDays (dayIndex t)
  toString c.1 ++ " " ++ monthAbbrev c.2.1

/-- Round half to even, as Python's fixed-point `format` does. -/
def roundHalfEven (x : ℚ) : Int :=
  let f := ⌊x⌋
  let frac := x - (f : ℚ)
  if frac < 1 / 2 then f
  else if (1 : ℚ) / 2 < frac then f + 1
  else if f % 2 = 0 then f else f + 1

/-- Insert thousands separators: input is the digit list least-significant
first, output likewise with `','` after every third digit. -/
def group3 : List Char → List Char
  | a :: b :: c :: d :: rest => a :: b :: c :: ',' :: group3 (d :: rest)
  | l => l

/-- Python `f"{x:,.0f}"`: round to an integer (half to even) and group the
digits in threes.  (The `-0` corner of float formatting is not reproduced;
no claim depends on it.) -/
def fmtMoney (x : ℚ) : String :=
  let n := roundHalfEven x
  let sign := if n < 0 then "-" else ""
  sign ++ String.mk (group3 (toString n.natAbs).toList.reverse).reverse

/-- Python `f"{x:+.df}"` with `d` decimals: always-signed fixed-point, half to
even. -/
def fmtSigned (d : Nat) (x : ℚ) : String :=
  let m := roundHalfEven (x * ((10 : ℚ) ^ d))
  let sign := if m < 0 then "-" else "+"
  let a := m.natAbs
  if d = 0 then sign ++ toString a
  else sign ++ toString (a / 10 ^ d) ++ "." ++
    (String.mk (List.replicate (d - (toString (a % 10 ^ d)).length) '0') ++ toString (a % 10 ^ d))

/-- The `Daily_Label` column (app.py 171-173): `f"${pnl:,.0f}<br>({ret:+.2f}%)"`. -/
def dailyLabelStr (pnl ret : ℚ) : String :=
  "$" ++ fmtMoney pnl ++ "<br>(" ++ fmtSigned 2 ret ++ "%)"

/-- The `Label_Equity` column (app.py 175-177): `f"${eq:,.0f}<br>({ret:+.1f}%)"`. -/
def equityLabelStr (eq ret : ℚ) : String :=
  "$" ++ fmtMoney eq ++ "<br>(" ++ fmtSigned 1 ret ++ "%)"

/-! ## The metrics transformer (app.py 159-181) -/

/-- A loaded record after `pd.to_datetime` has turned its date string into a
timestamp: the row shape `process_dataframe` works on. -/
structure TradeRow where
  symbol : String
  date : Int
  pnl : ℚ
  result : String
deriving DecidableEq, Repr, Inhabited

/-- One row of the enriched table: the input columns (with `Date` normalized)
plus the seven derived columns added in app.py 166-180. -/
structure EnrichedTrade where
  symbol : String
  date : Int
  pnl : ℚ
  result : String
  cum : ℚ
  equity : ℚ
  retPct : ℚ
  dailyPct : ℚ
  dailyLabel : String
  labelEquity : String
  monthSort : String
  month : String
deriving DecidableEq, Repr, Inhabited

instance : Inhabited EnrichedTrade :=
  ⟨{ symbol := "", date := 0, pnl := 0, result := "", cum := 0, equity := 0, retPct := 0,
     dailyPct := 0, dailyLabel := "", labelEquity := "", monthSort := "", month := "" }⟩

/-- Running sums: `Series.cumsum` (app.py line 166). -/
def cumsumFrom (acc : ℚ) : List ℚ → List ℚ
  | [] => []
  | x :: xs => (acc + x) :: cumsumFrom (acc + x) xs

/-- Cumulative sum of a list, first entry included. -/
def cumsum (l : List ℚ) : List ℚ := cumsumFrom 0 l

/-- One enriched row: the derived columns of app.py 166-180 for a (sorted,
normalized) row `r` with running total `c`. -/
def enrichRow (capital : ℚ) (r : TradeRow) (c : ℚ) : EnrichedTrade :=
  { symbol := r.symbol
    date := r.date
    pnl := r.pnl
    result := r.result
    cum := c
    equity := capital + c
    retPct := c / capital * 100
    dailyPct := r.pnl / capital * 100
    dailyLabel := dailyLabelStr r.pnl (r.pnl / capital * 100)
    labelEquity := equityLabelStr (capital + c) (c / capital * 100)
    monthSort := monthSortOf r.date
    month := monthLabelOf r.date }

/-- `process_dataframe` (app.py 159-181): normalize dates to midnight, sort by
date with pandas' default quicksort, then add the cumulative/derived columns
row by row. -/
def process_dataframe (data : List TradeRow) (capital : ℚ) : List EnrichedTrade :=
  let d1 := data.map fun r => { r with date := pdNormalize r.date }
  let sorted := npSortBy (fun r : TradeRow => r.date) d1
  let cums := cumsum (sorted.map fun r => r.pnl)
  (sorted.zip cums).map fun rc => enrichRow capital rc.1 rc.2

/-! ## Top level and chart branches -/

/-- The starting capital constant (app.py line 156). -/
def initial_capital : ℚ := 18600

/-- One bar of the Monthly Returns chart (app.py 276-281). -/
structure MonthlyRow where
  monthSort : String
  month : String
  pnl : ℚ
  retPct : ℚ
  label : String
deriving DecidableEq, Repr, Inhabited

/-- `df.groupby(['Month_Sort', 'Month'])['P&L'].sum().reset_index()`
(app.py line 276): pandas groups by the distinct key pairs in ascending key
order and sums each group's P&L. -/
def groupbyMonth (df : List EnrichedTrade) : List (String × String × ℚ) :=
  let keys := ((df.map fun r => (r.monthSort, r.month)).dedup).mergeSort
    (fun a b => decide (a.1 < b.1) || (a.1 == b.1 && decide (a.2 ≤ b.2)))
  keys.map fun k =>
    (k.1, k.2, ((df.filter fun r => (r.monthSort, r.month) == k).map fun r => r.pnl).sum)

/-- The Monthly Returns dataframe (app.py 275-281): group-by sum, re-sorted by
`Month_Sort` (again pandas' default quicksort), then the derived columns. -/
def monthly_df (df : List EnrichedTrade) : List MonthlyRow :=
  let g := groupbyMonth df
  let g := npSortBy (fun r : String × String × ℚ => r.1) g
  g.map fun r =>
    { monthSort := r.1
      month := r.2.1
      pnl := r.2.2
      retPct := r.2.2 / initial_capital * 100
      label := "$" ++ fmtMoney r.2.2 ++ "<br>(" ++ fmtSigned 1 (r.2.2 / initial_capital * 100) ++ "%)" }

/-- Bar colors of the Daily P&L branch (app.py line 264):
`'#00C805' if x >= 0 else '#FF3B30'` over `df['P&L']`. -/
def dailyColors (df : List EnrichedTrade) : List String :=
  df.map fun r => if r.pnl ≥ 0 then "#00C805" else "#FF3B30"

/-- Bar colors of the Monthly Returns branch (app.py line 282), same rule over
the monthly sums. -/
def monthlyColors (g : List MonthlyRow) : List String :=
  g.map fun r => if r.pnl ≥ 0 then "#00C805" else "#FF3B30"

/-- The Win Rate pie's `color_map` (app.py line 295). -/
def winRateColorMap : String → Option String
  | "Win" => some "#00C805"
  | "Loss" => some "#FF3B30"
  | "Break Even" => some "gray"
  | _ => none

/-- Minimal model of `pd.to_datetime` on the loader's output strings, for the
top-level composition: parse an ISO `YYYY-MM-DD[THH:MM:SS…]` string to a
timestamp.  Only the shape of the top-level control flow (claim C8) depends on
this; a missing date is mapped to the epoch. -/
def parseDigits (s : List Char) : Nat :=
  s.foldl (fun acc c => acc * 10 + (c.toNat - '0'.toNat)) 0

/-- Day part of the ISO string. -/
def parseISODate (s : String) : Int :=
  let cs := s.toList
  let y := parseDigits (cs.take 4)
  let m := parseDigits ((cs.drop 5).take 2)
  let d := parseDigits ((cs.drop 8).take 2)
  let hh := parseDigits ((cs.drop 11).take 2)
  let mi := parseDigits ((cs.drop 14).take 2)
  let ss := parseDigits ((cs.drop 17).take 2)
  let mp : Int := if m < 3 then (m : Int) + 9 else (m : Int) - 3
  let yAdj : Int := if m < 3 then (y : Int) - 1 else (y : Int)
  let era : Int := yAdj / 400
  let yoe : Int := yAdj - era * 400
  let doy : Int := (153 * mp + 2) / 5 + (d : Int) - 1
  let doe : Int := yoe * 365 + yoe / 4 - yoe / 100 + doy
  (era * 146097 + doe - 719468) * secondsPerDay + ((hh * 3600 + mi * 60 + ss : Nat) : Int)

/-- A loaded record as `process_dataframe` receives it after
`pd.to_datetime(df['Date'])` (app.py line 161). -/
def toRow (r : TradeRecord) : TradeRow :=
  { symbol := r.symbol
    date := (r.date.map parseISODate).getD 0
    pnl := r.pnl
    result := r.result }

/-- The top-level control flow around the pipeline (app.py 148-183): load, and
if nothing was loaded show the empty-state warning and stop (`st.warning` +
`st.stop`, lines 152-154) without ever invoking the transformer; otherwise run
`process_dataframe` on the loaded records. -/
def runDashboard (resp : NotionResponse) : Sum String (List EnrichedTrade) :=
  let raw := load_notion_data resp
  if raw = [] then Sum.inl "未读取到数据，请检查 Database ID 或 Notion 内容。"
  else Sum.inr (process_dataframe (raw.map toRow) initial_capital)

/-- Rewrite the never-read result-like column of every returned page:
used to state that the loader's output is independent of it. -/
def mapResultProp (f : Option String → Option String) : NotionResponse → NotionResponse
  | .failure => .failure
  | .noDataSource => .noDataSource
  | .ok pages => .ok (pages.map fun p => { p with resultProp := f p.resultProp })

/-- Seventeen one-day trades on the same (midnight) date with distinct
symbols: one more row than numpy's insertion-sort cutoff, so
`sort_values(kind='quicksort')` runs a partition step on it. -/
def c1Rows : List TradeRow :=
  [⟨"a", 0, 0, "Break Even"⟩, ⟨"b", 0, 0, "Break Even"⟩, ⟨"c", 0, 0, "Break Even"⟩,
   ⟨"d", 0, 0, "Break Even"⟩, ⟨"e", 0, 0, "Break Even"⟩, ⟨"f", 0, 0, "Break Even"⟩,
   ⟨"g", 0, 0, "Break Even"⟩, ⟨"h", 0, 0, "Break Even"⟩, ⟨"i", 0, 0, "Break Even"⟩,
   ⟨"j", 0, 0, "Break Even"⟩, ⟨"k", 0, 0, "Break Even"⟩, ⟨"l", 0, 0, "Break Even"⟩,
   ⟨"m", 0, 0, "Break Even"⟩, ⟨"n", 0, 0, "Break Even"⟩, ⟨"o", 0, 0, "Break Even"⟩,
   ⟨"p", 0, 0, "Break Even"⟩, ⟨"q", 0, 0, "Break Even"⟩]

/-- A one-trade input used to instantiate claims at a concrete value. -/
def rowA : TradeRow := ⟨"A", 0, 5, "Win"⟩

/-- A break-even trade. -/
def rowZ : TradeRow := ⟨"Z", 0, 0, "Break Even"⟩

/-- A trade timestamped 1970-01-02 01:00:00 (not midnight). -/
def rowB : TradeRow := ⟨"B", 90000, 2, "Win"⟩

/-- A concrete page whose source row carries a result-like column. -/
def c3Page : NotionPage :=
  { nameTitle := some ["AAPL"], symbolTitle := none, pnlNumber := some 5,
    tradeDate := some { startDate := some "2024-01-01", endDate := none },
    resultProp := some "Loss" }

/-- The record the loader produces from `c3Page`. -/
def c3Rec : TradeRecord :=
  { symbol := "AAPL", date := some "2024-01-01", pnl := 5, result := "Win" }

/-- A page whose date-range property is present but holds neither a start nor
an end value. -/
def c4Page : NotionPage :=
  { nameTitle := none, symbolTitle := none, pnlNumber := none,
    tradeDate := some { startDate := none, endDate := none }, resultProp := none }

/-- A page whose "Name" title array holds a single empty text fragment. -/
def c6Page : NotionPage :=
  { nameTitle := some [""], symbolTitle := none, pnlNumber := some 5,
    tradeDate := some { startDate := some "2024-01-01", endDate := none },
    resultProp := none }

/-! ## Verification predicates -/

section SortPredicates

variable {α : Type} [Inhabited α] {κ : Type} [LinearOrder κ]

/-- The sub-list of positions `lo..hi` (inclusive) of `l`. -/
def seg (l : List α) (lo hi : Nat) : List α := (l.drop lo).take (hi + 1 - lo)

/-- `l'` arises from `l` by rearranging entries, all of it confined to the
positions `lo..hi`: a permutation of the whole list that fixes everything
outside the segment. -/
def SegPerm (lo hi : Nat) (l l' : List α) : Prop :=
  l'.Perm l ∧ ∀ k : Nat, k < lo ∨ hi < k → l'[k]? = l[k]?

/-- Keys are non-decreasing across the positions `lo..hi` of `l`. -/
def SortedSeg (key : α → κ) (l : List α) (lo hi : Nat) : Prop :=
  ∀ i j : Nat, lo ≤ i → i ≤ j → j ≤ hi → key (lget l i) ≤ key (lget l j)

end SortPredicates

/-! ## Facts about the indexed-update primitives -/

section IndexFacts

variable {α : Type} [Inhabited α]

theorem lget_eq_getElem (l : List α) (i : Nat) (h : i < l.length) : lget l i = l[i] := by
  simp [lget, List.getElem?_eq_getElem h]

theorem set_lget_self (l : List α) (i : Nat) : l.set i (lget l i) = l := by
  apply List.ext_getElem?
  intro n
  rw [List.getElem?_set]
  split
  · next hin =>
    subst hin
    split
    · next hlt => simp [lget, List.getElem?_eq_getElem hlt]
    · next hge => rw [eq_comm, List.getElem?_eq_none]; omega
  · rfl

/-- Multiset workhorse: moving the entry at `b` onto position `a` and then
overwriting position `b` with `v` permutes to simply overwriting `a` with
`v`. -/
theorem set_set_perm (l : List α) {a b : Nat} (hab : a ≠ b) (ha : a < l.length)
    (hb : b < l.length) (v : α) :
    ((l.set a (lget l b)).set b v).Perm (l.set a v) := by
  classical
  rw [List.perm_iff_count]
  intro x
  have hb1 : b < (l.set a (lget l b)).length := by simpa using hb
  have hbv : (l.set a (lget l b))[b] = l[b] := by
    rw [List.getElem_set]
    simp [hab]
  rw [List.count_set _ _ _ _ hb1, List.count_set _ _ _ _ ha, List.count_set _ _ _ _ ha, hbv]
  rw [lget_eq_getElem l b hb]
  omega

theorem length_lswap (l : List α) (i j : Nat) : (lswap l i j).length = l.length := by
  simp [lswap]

theorem lswap_perm (l : List α) {i j : Nat} (hi : i < l.length) (hj : j < l.length) :
    (lswap l i j).Perm l := by
  by_cases h : i = j
  · subst h
    unfold lswap
    rw [List.set_set, set_lget_self]
  · unfold lswap
    refine (set_set_perm l h hi hj (lget l i)).trans ?_
    rw [set_lget_self]

theorem getElem?_lswap_ne (l : List α) (i j k : Nat) (h1 : k ≠ i) (h2 : k ≠ j) :
    (lswap l i j)[k]? = l[k]? := by
  unfold lswap
  rw [List.getElem?_set_ne (Ne.symm h2), List.getElem?_set_ne (Ne.symm h1)]

theorem lget_lswap_ne (l : List α) (i j k : Nat) (h1 : k ≠ i) (h2 : k ≠ j) :
    lget (lswap l i j) k = lget l k := by
  unfold lget
  rw [getElem?_lswap_ne l i j k h1 h2]

theorem lget_set_ne (l : List α) (i k : Nat) (v : α) (h : k ≠ i) :
    lget (l.set i v) k = lget l k := by
  unfold lget
  rw [List.getElem?_set_ne (Ne.symm h)]

theorem lget_set_self (l : List α) {i : Nat} (v : α) (h : i < l.length) :
    lget (l.set i v) i = v := by
  unfold lget
  rw [List.getElem?_set_self (by simpa using h)]
  rfl

theorem lget_lswap_left (l : List α) {i j : Nat} (hi : i < l.length) (hj : j < l.length) :
    lget (lswap l i j) i = lget l j := by
  unfold lswap
  by_cases h : i = j
  · subst h
    rw [List.set_set]
    exact lget_set_self l _ hi
  · rw [lget_set_ne _ _ _ _ h]
    exact lget_set_self l _ hi

theorem lget_lswap_right (l : List α) {i j : Nat} (hi : i < l.length) (hj : j < l.length) :
    lget (lswap l i j) j = lget l i := by
  unfold lswap
  exact lget_set_self _ _ (by simpa using hj)

end IndexFacts

/-! ## Segment permutation machinery -/

section SegFacts

variable {α : Type} [Inhabited α] {κ : Type} [LinearOrder κ]

theorem SegPerm.refl (lo hi : Nat) (l : List α) : SegPerm lo hi l l :=
  ⟨List.Perm.refl l, fun _ _ => rfl⟩

theorem SegPerm.trans {lo hi : Nat} {l1 l2 l3 : List α}
    (h12 : SegPerm lo hi l1 l2) (h23 : SegPerm lo hi l2 l3) : SegPerm lo hi l1 l3 :=
  ⟨h23.1.trans h12.1, fun k hk => (h23.2 k hk).trans (h12.2 k hk)⟩

theorem SegPerm.mono {lo hi lo' hi' : Nat} {l l' : List α} (hlo : lo ≤ lo') (hhi : hi' ≤ hi)
    (h : SegPerm lo' hi' l l') : SegPerm lo hi l l' :=
  ⟨h.1, fun k hk => h.2 k (by omega)⟩

theorem SegPerm.length_eq {lo hi : Nat} {l l' : List α} (h : SegPerm lo hi l l') :
    l'.length = l.length := h.1.length_eq

theorem SegPerm.lget_eq {lo hi : Nat} {l l' : List α} (h : SegPerm lo hi l l')
    (k : Nat) (hk : k < lo ∨ hi < k) : lget l' k = lget l k := by
  unfold lget
  rw [h.2 k hk]

theorem segPerm_lswap (lo hi : Nat) (l : List α) {i j : Nat}
    (h1i : lo ≤ i) (h2i : i ≤ hi) (h1j : lo ≤ j) (h2j : j ≤ hi)
    (hi' : i < l.length) (hj' : j < l.length) : SegPerm lo hi l (lswap l i j) :=
  ⟨lswap_perm l hi' hj', fun k hk => getElem?_lswap_ne l i j k (by omega) (by omega)⟩

theorem seg_getElem? (l : List α) (lo hi k : Nat) (h1 : lo ≤ k) (h2 : k ≤ hi) :
    (seg l lo hi)[k - lo]? = l[k]? := by
  unfold seg
  rw [List.getElem?_take, List.getElem?_drop]
  have : k - lo < hi + 1 - lo := by omega
  rw [if_pos this]
  congr 1
  omega

theorem lget_mem_seg (l : List α) {lo hi k : Nat} (h1 : lo ≤ k) (h2 : k ≤ hi)
    (h3 : k < l.length) : lget l k ∈ seg l lo hi := by
  have h := seg_getElem? l lo hi k h1 h2
  rw [List.getElem?_eq_getElem h3] at h
  rw [lget_eq_getElem l k h3]
  obtain ⟨hlt, heq⟩ := List.getElem?_eq_some.mp h
  exact heq ▸ List.getElem_mem hlt

theorem mem_seg_lget (l : List α) {lo hi : Nat} {x : α} (h : x ∈ seg l lo hi) :
    ∃ k : Nat, lo ≤ k ∧ k ≤ hi ∧ k < l.length ∧ lget l k = x := by
  obtain ⟨m, hm, hx⟩ := List.mem_iff_getElem.mp h
  have hm' : m < hi + 1 - lo := by
    have := hm
    unfold seg at this
    simp only [List.length_take, List.length_drop] at this
    omega
  refine ⟨lo + m, by omega, by omega, ?_, ?_⟩
  · have h1 : (seg l lo hi)[m]? = l[lo + m]? := by
      have := seg_getElem? l lo hi (lo + m) (by omega) (by omega)
      simpa using this
    rw [List.getElem?_eq_getElem hm, hx] at h1
    by_contra hlen
    rw [eq_comm, List.getElem?_eq_none (by omega)] at h1
    exact Option.noConfusion h1
  · have h1 : (seg l lo hi)[m]? = l[lo + m]? := by
      have := seg_getElem? l lo hi (lo + m) (by omega) (by omega)
      simpa using this
    rw [List.getElem?_eq_getElem hm, hx] at h1
    unfold lget
    rw [← h1]
    rfl

theorem seg_decomp (l : List α) (lo hi : Nat) (h1 : lo ≤ hi) (h2 : hi < l.length) :
    l = l.take lo ++ seg l lo hi ++ l.drop (hi + 1) := by
  unfold seg
  rw [List.append_assoc]
  have hd : l.drop (hi + 1) = (l.drop lo).drop (hi + 1 - lo) := by
    rw [List.drop_drop]
    congr 1
    omega
  rw [hd, List.take_append_drop, List.take_append_drop]

theorem segPerm_seg_perm {lo hi : Nat} {l l' : List α} (h : SegPerm lo hi l l')
    (h1 : lo ≤ hi) (h2 : hi < l.length) : (seg l' lo hi).Perm (seg l lo hi) := by
  have hlen := h.length_eq
  have h2' : hi < l'.length := by omega
  have htake : l'.take lo = l.take lo := by
    apply List.ext_getElem?
    intro n
    rw [List.getElem?_take, List.getElem?_take]
    split
    · next hn => exact h.2 n (Or.inl hn)
    · rfl
  have hdrop : l'.drop (hi + 1) = l.drop (hi + 1) := by
    apply List.ext_getElem?
    intro n
    rw [List.getElem?_drop, List.getElem?_drop]
    exact h.2 (hi + 1 + n) (Or.inr (by omega))
  have hperm := h.1
  have hl : l = l.take lo ++ seg l lo hi ++ l.drop (hi + 1) := seg_decomp l lo hi h1 h2
  have hl' : l' = l.take lo ++ seg l' lo hi ++ l.drop (hi + 1) := by
    rw [← htake, ← hdrop]
    exact seg_decomp l' lo hi h1 h2'
  rw [hl, hl'] at hperm
  rw [List.append_assoc, List.append_assoc] at hperm
  have hmid := (List.perm_append_left_iff (l.take lo)).mp hperm
  exact (List.perm_append_right_iff (l.drop (hi + 1))).mp hmid

/-- Any bound satisfied by all keys of a segment survives a segment-confined
permutation. -/
theorem segPerm_key_bound {lo hi : Nat} {l l' : List α} (h : SegPerm lo hi l l')
    (h1 : lo ≤ hi) (h2 : hi < l.length) (P : α → Prop)
    (hP : ∀ k, lo ≤ k → k ≤ hi → P (lget l k)) :
    ∀ k, lo ≤ k → k ≤ hi → P (lget l' k) := by
  intro k hk1 hk2
  have hlen := h.length_eq
  have hmem : lget l' k ∈ seg l' lo hi := lget_mem_seg l' hk1 (le_trans hk2 (le_refl hi)) (by omega)
  have hmem2 : lget l' k ∈ seg l lo hi := (segPerm_seg_perm h h1 h2).subset hmem
  obtain ⟨k', hk1', hk2', _, heq⟩ := mem_seg_lget l hmem2
  rw [← heq]
  exact hP k' hk1' hk2'

theorem lswap_self (l : List α) (i : Nat) : lswap l i i = l := by
  unfold lswap
  rw [List.set_set, set_lget_self]

end SegFacts

/-! ## Scan and partition specifications -/

section ScanFacts

variable {α : Type} [Inhabited α] {κ : Type} [LinearOrder κ]

theorem scanUp_spec (key : α → κ) (kp : κ) (l : List α) (fuel : Nat) :
    ∀ i s : Nat, i ≤ s → s ≤ i + fuel → ¬ key (lget l s) < kp →
      i ≤ scanUp key kp l fuel i ∧ scanUp key kp l fuel i ≤ s ∧
      ¬ key (lget l (scanUp key kp l fuel i)) < kp ∧
      ∀ k, i ≤ k → k < scanUp key kp l fuel i → key (lget l k) < kp := by
  induction fuel with
  | zero =>
    intro i s h1 h2 h3
    have hsi : s = i := by omega
    rw [hsi] at h3
    simp only [scanUp]
    exact ⟨le_refl i, by omega, h3, fun k hk1 hk2 => absurd (lt_of_le_of_lt hk1 hk2) (lt_irrefl i)⟩
  | succ fuel ih =>
    intro i s h1 h2 h3
    simp only [scanUp]
    split
    · next hcond =>
      have his : i ≠ s := fun he => h3 (he ▸ hcond)
      have hr := ih (i + 1) s (by omega) (by omega) h3
      refine ⟨by omega, hr.2.1, hr.2.2.1, ?_⟩
      intro k hk1 hk2
      rcases Nat.eq_or_lt_of_le hk1 with he | hlt
      · rw [← he]; exact hcond
      · exact hr.2.2.2 k hlt hk2
    · next hcond =>
      exact ⟨le_refl i, h1, hcond, fun k hk1 hk2 => absurd (lt_of_le_of_lt hk1 hk2) (lt_irrefl i)⟩

theorem scanDown_spec (key : α → κ) (kp : κ) (l : List α) (fuel : Nat) :
    ∀ j s : Nat, s ≤ j → j ≤ s + fuel → ¬ kp < key (lget l s) →
      scanDown key kp l fuel j ≤ j ∧ s ≤ scanDown key kp l fuel j ∧
      ¬ kp < key (lget l (scanDown key kp l fuel j)) ∧
      ∀ k, scanDown key kp l fuel j < k → k ≤ j → kp < key (lget l k) := by
  induction fuel with
  | zero =>
    intro j s h1 h2 h3
    have hsj : s = j := by omega
    rw [hsj] at h3
    simp only [scanDown]
    exact ⟨le_refl j, by omega, h3, fun k hk1 hk2 => absurd (lt_of_lt_of_le hk1 hk2) (lt_irrefl j)⟩
  | succ fuel ih =>
    intro j s h1 h2 h3
    simp only [scanDown]
    split
    · next hcond =>
      have hjs : j ≠ s := fun he => h3 (he ▸ hcond)
      have hr := ih (j - 1) s (by omega) (by omega) h3
      refine ⟨by omega, hr.2.1, hr.2.2.1, ?_⟩
      intro k hk1 hk2
      rcases Nat.eq_or_lt_of_le hk2 with he | hlt
      · rw [he]; exact hcond
      · exact hr.2.2.2 k hk1 (by omega)
    · next hcond =>
      exact ⟨le_refl j, h1, hcond, fun k hk1 hk2 => absurd (lt_of_lt_of_le hk1 hk2) (lt_irrefl j)⟩

theorem median3_spec (key : α → κ) (l : List α) (lo mid hi : Nat)
    (h1 : lo < mid) (h2 : mid < hi) (hlen : hi < l.length) :
    SegPerm lo hi l (median3 key l lo mid hi) ∧
    key (lget (median3 key l lo mid hi) lo) ≤ key (lget (median3 key l lo mid hi) mid) ∧
    key (lget (median3 key l lo mid hi) mid) ≤ key (lget (median3 key l lo mid hi) hi) := by
  have hmidlen : mid < l.length := by omega
  have hlolen : lo < l.length := by omega
  simp only [median3]
  set l1 := if key (lget l mid) < key (lget l lo) then lswap l mid lo else l with hl1
  have hlen1 : l1.length = l.length := by
    rw [hl1]; split
    · exact length_lswap l mid lo
    · rfl
  have hseg1 : SegPerm lo hi l l1 := by
    rw [hl1]; split
    · exact segPerm_lswap lo hi l (by omega) (by omega) (le_refl lo) (by omega) hmidlen hlolen
    · exact SegPerm.refl lo hi l
  have hord1 : key (lget l1 lo) ≤ key (lget l1 mid) := by
    rw [hl1]; split
    · next hc =>
      rw [lget_lswap_right l hmidlen hlolen, lget_lswap_left l hmidlen hlolen]
      exact le_of_lt hc
    · next hc => exact le_of_not_lt hc
  set l2 := if key (lget l1 hi) < key (lget l1 mid) then lswap l1 hi mid else l1 with hl2
  have hlen2 : l2.length = l.length := by
    rw [hl2]; split
    · rw [length_lswap]; exact hlen1
    · exact hlen1
  have hseg2 : SegPerm lo hi l1 l2 := by
    rw [hl2]; split
    · exact segPerm_lswap lo hi l1 (by omega) (le_refl hi) (by omega) (by omega)
        (by omega) (by omega)
    · exact SegPerm.refl lo hi l1
  have hlo2 : lget l2 lo = lget l1 lo := by
    rw [hl2]; split
    · exact lget_lswap_ne l1 hi mid lo (by omega) (by omega)
    · rfl
  have hord2a : key (lget l2 mid) ≤ key (lget l2 hi) := by
    rw [hl2]; split
    · next hc =>
      rw [lget_lswap_right l1 (by omega) (by omega), lget_lswap_left l1 (by omega) (by omega)]
      exact le_of_lt hc
    · next hc => exact le_of_not_lt hc
  have hord2b : key (lget l2 lo) ≤ key (lget l2 hi) := by
    rw [hl2]; split
    · next hc =>
      rw [lget_lswap_ne l1 hi mid lo (by omega) (by omega),
        lget_lswap_left l1 (by omega) (by omega)]
      exact hord1
    · next hc => exact le_trans hord1 (le_of_not_lt hc)
  constructor
  · split
    · next hc =>
      exact (hseg1.trans hseg2).trans
        (segPerm_lswap lo hi l2 (by omega) (by omega) (le_refl lo) (by omega)
          (by omega) (by omega))
    · exact hseg1.trans hseg2
  constructor
  · split
    · next hc =>
      rw [lget_lswap_right l2 (by omega) (by omega), lget_lswap_left l2 (by omega) (by omega)]
      exact le_of_lt hc
    · next hc => exact le_of_not_lt hc
  · split
    · next hc =>
      rw [lget_lswap_left l2 (by omega) (by omega),
        lget_lswap_ne l2 mid lo hi (by omega) (by omega)]
      exact hord2b
    · next hc => exact hord2a

/-- Invariant of the partition exchange loop: it permutes only positions
strictly inside `(lo, hi-1)`, and stops at a crossing point `p` with
everything left of `p` at most the pivot key and everything from `p` to `hi`
at least the pivot key. -/
theorem partLoop_spec (key : α → κ) (kp : κ) (lo hi : Nat) (fuel : Nat) :
    ∀ (l : List α) (pi pj : Nat),
      hi < l.length → lo + 1 < hi →
      lo ≤ pi → pi < pj → pj ≤ hi - 1 → pj - pi ≤ fuel →
      (∀ k, lo ≤ k → k ≤ pi → key (lget l k) ≤ kp) →
      (∀ k, pj ≤ k → k ≤ hi → kp ≤ key (lget l k)) →
      SegPerm (lo + 1) (hi - 2) l (partLoop key kp hi fuel l pi pj).1 ∧
      lo + 1 ≤ (partLoop key kp hi fuel l pi pj).2 ∧
      (partLoop key kp hi fuel l pi pj).2 ≤ hi - 1 ∧
      (∀ k, lo ≤ k → k < (partLoop key kp hi fuel l pi pj).2 →
        key (lget (partLoop key kp hi fuel l pi pj).1 k) ≤ kp) ∧
      (∀ k, (partLoop key kp hi fuel l pi pj).2 ≤ k → k ≤ hi →
        kp ≤ key (lget (partLoop key kp hi fuel l pi pj).1 k)) := by
  induction fuel with
  | zero =>
    intro l pi pj _ _ _ hij _ hgap _ _
    omega
  | succ fuel ih =>
    intro l pi pj hlen hlohi hlopi hij hpj hgap hloInv hhiInv
    simp only [partLoop]
    have hsU := scanUp_spec key kp l hi (pi + 1) (hi - 1) (by omega) (by omega)
      (not_lt.mpr (hhiInv (hi - 1) (by omega) (by omega)))
    have hsD := scanDown_spec key kp l hi (pj - 1) lo (by omega) (by omega)
      (not_lt.mpr (hloInv lo (le_refl lo) hlopi))
    set piv := scanUp key kp l hi (pi + 1) with hpivdef
    set pjv := scanDown key kp l hi (pj - 1) with hpjvdef
    obtain ⟨hU1, hU2, hU3, hU4⟩ := hsU
    obtain ⟨hD1, hD2, hD3, hD4⟩ := hsD
    split
    · next hexit =>
      refine ⟨SegPerm.refl _ _ l, by omega, by omega, ?_, ?_⟩
      · intro k hk1 hk2
        by_cases hk : k ≤ pi
        · exact hloInv k hk1 hk
        · exact le_of_lt (hU4 k (by omega) hk2)
      · intro k hk1 hk2
        rcases Nat.eq_or_lt_of_le hk1 with he | hlt
        · rw [← he]; exact le_of_not_lt hU3
        · by_cases hk : pj ≤ k
          · exact hhiInv k hk hk2
          · exact le_of_lt (hD4 k (by omega) (by omega))
    · next hexit =>
      have hplt : piv < pjv := by omega
      have hpivlen : piv < l.length := by omega
      have hpjvlen : pjv < l.length := by omega
      have hloInv' : ∀ k, lo ≤ k → k ≤ piv → key (lget (lswap l piv pjv) k) ≤ kp := by
        intro k hk1 hk2
        rcases Nat.eq_or_lt_of_le hk2 with he | hlt
        · rw [he, lget_lswap_left l hpivlen hpjvlen]
          exact le_of_not_lt hD3
        · rw [lget_lswap_ne l piv pjv k (by omega) (by omega)]
          by_cases hk : k ≤ pi
          · exact hloInv k hk1 hk
          · exact le_of_lt (hU4 k (by omega) hlt)
      have hhiInv' : ∀ k, pjv ≤ k → k ≤ hi → kp ≤ key (lget (lswap l piv pjv) k) := by
        intro k hk1 hk2
        rcases Nat.eq_or_lt_of_le hk1 with he | hlt
        · rw [← he, lget_lswap_right l hpivlen hpjvlen]
          exact le_of_not_lt hU3
        · rw [lget_lswap_ne l piv pjv k (by omega) (by omega)]
          by_cases hk : pj ≤ k
          · exact hhiInv k hk hk2
          · exact le_of_lt (hD4 k (by omega) (by omega))
      have ihr := ih (lswap l piv pjv) piv pjv (by rw [length_lswap]; exact hlen) hlohi
        (by omega) hplt (by omega) (by omega) hloInv' hhiInv'
      refine ⟨?_, ihr.2.1, ihr.2.2.1, ihr.2.2.2.1, ihr.2.2.2.2⟩
      refine SegPerm.trans ?_ ihr.1
      exact segPerm_lswap (lo + 1) (hi - 2) l (by omega) (by omega) (by omega) (by omega)
        hpivlen hpjvlen

/-- Specification of one `aquicksort_` partition step: the segment is
permuted in place, the returned split point `p` lies strictly inside it, and
the entry at `p` separates the keys. -/
theorem apartition_spec (key : α → κ) (l : List α) (lo hi : Nat)
    (hlen : hi < l.length) (hsize : lo + 16 ≤ hi) :
    SegPerm lo hi l (apartition key l lo hi).1 ∧
    lo + 1 ≤ (apartition key l lo hi).2 ∧ (apartition key l lo hi).2 ≤ hi - 1 ∧
    (∀ k, lo ≤ k → k < (apartition key l lo hi).2 →
      key (lget (apartition key l lo hi).1 k) ≤
        key (lget (apartition key l lo hi).1 (apartition key l lo hi).2)) ∧
    (∀ k, (apartition key l lo hi).2 < k → k ≤ hi →
      key (lget (apartition key l lo hi).1 (apartition key l lo hi).2) ≤
        key (lget (apartition key l lo hi).1 k)) := by
  have hmidb : lo + 8 ≤ lo + (hi - lo) / 2 ∧ lo + (hi - lo) / 2 ≤ hi - 8 := by omega
  simp only [apartition]
  set mid := lo + (hi - lo) / 2 with hmiddef
  have hm3 := median3_spec key l lo mid hi (by omega) (by omega) hlen
  set l3 := median3 key l lo mid hi with hl3def
  have hlen3 : l3.length = l.length := hm3.1.length_eq
  set kp := key (lget l3 mid) with hkpdef
  set l4 := lswap l3 mid (hi - 1) with hl4def
  have hlen4 : l4.length = l.length := by rw [hl4def, length_lswap]; exact hlen3
  have h4m : lget l4 (hi - 1) = lget l3 mid := by
    rw [hl4def]; exact lget_lswap_right l3 (by omega) (by omega)
  have h4lo : lget l4 lo = lget l3 lo := by
    rw [hl4def]; exact lget_lswap_ne l3 mid (hi - 1) lo (by omega) (by omega)
  have h4hi : lget l4 hi = lget l3 hi := by
    rw [hl4def]; exact lget_lswap_ne l3 mid (hi - 1) hi (by omega) (by omega)
  have hPL := partLoop_spec key kp lo hi (hi - lo) l4 lo (hi - 1)
    (by omega) (by omega) (le_refl lo) (by omega) (le_refl (hi - 1)) (by omega)
    (by
      intro k hk1 hk2
      have hk : k = lo := by omega
      rw [hk, h4lo]
      exact hm3.2.1)
    (by
      intro k hk1 hk2
      rcases Nat.eq_or_lt_of_le hk1 with he | hlt
      · rw [← he, h4m]
      · have hk : k = hi := by omega
        rw [hk, h4hi]
        exact hm3.2.2)
  set r := partLoop key kp hi (hi - lo) l4 lo (hi - 1) with hrdef
  obtain ⟨hS, hp1, hp2, hlow, hupp⟩ := hPL
  have hlen5 : r.1.length = l.length := by rw [hS.length_eq]; exact hlen4
  have h5piv : lget r.1 (hi - 1) = lget l3 mid := by
    rw [hS.lget_eq (hi - 1) (Or.inr (by omega))]
    exact h4m
  have hseg : SegPerm lo hi l (lswap r.1 r.2 (hi - 1)) := by
    refine ((hm3.1.trans ?_).trans (hS.mono (by omega) (by omega))).trans ?_
    · rw [hl4def]
      exact segPerm_lswap lo hi l3 (by omega) (by omega) (by omega) (by omega)
        (by omega) (by omega)
    · exact segPerm_lswap lo hi r.1 (by omega) (by omega) (by omega) (by omega)
        (by omega) (by omega)
  by_cases hP : r.2 = hi - 1
  · rw [hP, lswap_self]
    refine ⟨by rw [← hP] at hseg; rw [hP, lswap_self] at hseg; exact hseg, by omega, by omega, ?_, ?_⟩
    · intro k hk1 hk2
      rw [h5piv]
      exact hlow k hk1 (by omega)
    · intro k hk1 hk2
      rw [h5piv]
      exact hupp k (by omega) hk2
  · have hkey : lget (lswap r.1 r.2 (hi - 1)) r.2 = lget l3 mid := by
      rw [lget_lswap_left r.1 (by omega) (by omega)]
      exact h5piv
    refine ⟨hseg, by omega, by omega, ?_, ?_⟩
    · intro k hk1 hk2
      rw [hkey, lget_lswap_ne r.1 r.2 (hi - 1) k (by omega) (by omega)]
      exact hlow k hk1 hk2
    · intro k hk1 hk2
      rw [hkey]
      by_cases hk : k = hi - 1
      · rw [hk, lget_lswap_right r.1 (by omega) (by omega)]
        exact hupp r.2 (le_refl r.2) (by omega)
      · rw [lget_lswap_ne r.1 r.2 (hi - 1) k (by omega) (by omega)]
        exact hupp k (by omega) hk2

end ScanFacts

/-! ## Insertion sort specification -/

section InsertionFacts

variable {α : Type} [Inhabited α] {κ : Type} [LinearOrder κ]

/-- Invariant of the C insertion shift: inserting `vi` at the sorted position
within `[lo, j]` permutes to writing `vi` at `j`, touches nothing outside
`[lo, m]`, and leaves `[lo, m]` sorted. -/
theorem shiftIns_spec (key : α → κ) (lo : Nat) (vi : α) (m : Nat) (fuel : Nat) :
    ∀ (l : List α) (j : Nat),
      lo ≤ j → j ≤ m → m < l.length → j ≤ lo + fuel →
      (∀ a b, lo ≤ a → a ≤ b → b ≤ m → a ≠ j → b ≠ j → key (lget l a) ≤ key (lget l b)) →
      (∀ b, j < b → b ≤ m → key vi < key (lget l b)) →
      (shiftIns key lo vi fuel l j).Perm (l.set j vi) ∧
      (∀ k, k < lo ∨ m < k → (shiftIns key lo vi fuel l j)[k]? = l[k]?) ∧
      (∀ a b, lo ≤ a → a ≤ b → b ≤ m →
        key (lget (shiftIns key lo vi fuel l j) a) ≤ key (lget (shiftIns key lo vi fuel l j) b)) := by
  induction fuel with
  | zero =>
    intro l j hloj hjm hmlen hfuel sortInv aboveInv
    have hj : j = lo := by omega
    simp only [shiftIns]
    refine ⟨List.Perm.refl _, ?_, ?_⟩
    · intro k hk
      exact List.getElem?_set_ne (by omega)
    · intro a b ha hab hbm
      rcases Nat.eq_or_lt_of_le hab with he | hlt
      · rw [he]
      · by_cases haJ : a = j
        · rw [haJ, lget_set_self l vi (by omega), lget_set_ne l j b vi (by omega)]
          exact le_of_lt (aboveInv b (by omega) hbm)
        · rw [lget_set_ne l j a vi haJ, lget_set_ne l j b vi (by omega)]
          exact sortInv a b ha hab hbm haJ (by omega)
  | succ fuel ih =>
    intro l j hloj hjm hmlen hfuel sortInv aboveInv
    simp only [shiftIns]
    split
    · next hcond =>
      obtain ⟨hlj, hvij⟩ := hcond
      have hjlen : j < l.length := by omega
      have hj1len : j - 1 < l.length := by omega
      have sortInv' : ∀ a b, lo ≤ a → a ≤ b → b ≤ m → a ≠ j - 1 → b ≠ j - 1 →
          key (lget (l.set j (lget l (j - 1))) a) ≤ key (lget (l.set j (lget l (j - 1))) b) := by
        intro a b ha hab hbm haj hbj
        rcases Nat.eq_or_lt_of_le hab with he | hlt
        · rw [he]
        · by_cases hbJ : b = j
          · rw [hbJ, lget_set_self l _ hjlen, lget_set_ne l j a _ (by omega)]
            exact sortInv a (j - 1) ha (by omega) (by omega) (by omega) (by omega)
          · by_cases haJ : a = j
            · rw [haJ, lget_set_self l _ hjlen, lget_set_ne l j b _ (by omega)]
              exact sortInv (j - 1) b (by omega) (by omega) hbm (by omega) hbJ
            · rw [lget_set_ne l j a _ haJ, lget_set_ne l j b _ hbJ]
              exact sortInv a b ha hab hbm haJ hbJ
      have aboveInv' : ∀ b, j - 1 < b → b ≤ m →
          key vi < key (lget (l.set j (lget l (j - 1))) b) := by
        intro b hb1 hb2
        by_cases hbJ : b = j
        · rw [hbJ, lget_set_self l _ hjlen]
          exact hvij
        · rw [lget_set_ne l j b _ hbJ]
          exact aboveInv b (by omega) hb2
      have ihr := ih (l.set j (lget l (j - 1))) (j - 1) (by omega) (by omega)
        (by simpa using hmlen) (by omega) sortInv' aboveInv'
      refine ⟨?_, ?_, ihr.2.2⟩
      · refine ihr.1.trans ?_
        exact set_set_perm l (by omega) hjlen hj1len vi
      · intro k hk
        rw [ihr.2.1 k hk, List.getElem?_set_ne (by omega)]
    · next hcond =>
      have hjlen : j < l.length := by omega
      have hstop : j = lo ∨ ¬ key vi < key (lget l (j - 1)) := by
        by_cases h1 : lo < j
        · right; intro h2; exact hcond ⟨h1, h2⟩
        · left; omega
      refine ⟨List.Perm.refl _, ?_, ?_⟩
      · intro k hk
        exact List.getElem?_set_ne (by omega)
      · intro a b ha hab hbm
        rcases Nat.eq_or_lt_of_le hab with he | hlt
        · rw [he]
        · by_cases hbJ : b = j
          · by_cases haJ : a = j
            · omega
            · rw [hbJ, lget_set_self l vi hjlen, lget_set_ne l j a vi haJ]
              rcases hstop with hjlo | hge
              · omega
              · refine le_trans (sortInv a (j - 1) ha (by omega) (by omega) haJ (by omega)) ?_
                exact le_of_not_lt hge
          · by_cases haJ : a = j
            · rw [haJ, lget_set_self l vi hjlen, lget_set_ne l j b vi hbJ]
              exact le_of_lt (aboveInv b (by omega) hbm)
            · rw [lget_set_ne l j a vi haJ, lget_set_ne l j b vi hbJ]
              exact sortInv a b ha hab hbm haJ hbJ

/-- Invariant of the insertion sort outer loop: with `[lo, i-1]` sorted it
sorts `[lo, hi]` in place. -/
theorem insLoop_spec (key : α → κ) (lo hi : Nat) (fuel : Nat) :
    ∀ (l : List α) (i : Nat), lo < i → hi < l.length → i ≤ hi + 1 → hi + 1 ≤ i + fuel →
      (∀ a b, lo ≤ a → a ≤ b → b + 1 ≤ i → key (lget l a) ≤ key (lget l b)) →
      SegPerm lo hi l (insLoop key lo hi fuel l i) ∧
      SortedSeg key (insLoop key lo hi fuel l i) lo hi := by
  induction fuel with
  | zero =>
    intro l i hloi hlen hle hfuel hsorted
    have hieq : i = hi + 1 := by omega
    simp only [insLoop]
    exact ⟨SegPerm.refl lo hi l, fun a b ha hab hbm => hsorted a b ha hab (by omega)⟩
  | succ fuel ih =>
    intro l i hloi hlen hle hfuel hsorted
    simp only [insLoop]
    split
    · next hcond =>
      have hilen : i < l.length := by omega
      have hsh := shiftIns_spec key lo (lget l i) i i l i (by omega) (le_refl i) hilen
        (by omega)
        (fun a b ha hab hbm haj hbj => hsorted a b ha hab (by omega))
        (fun b hb1 hb2 => absurd (lt_of_lt_of_le hb1 hb2) (lt_irrefl i))
      have hperm : (shiftIns key lo (lget l i) i l i).Perm l := by
        refine hsh.1.trans ?_
        rw [set_lget_self]
      have hseg1 : SegPerm lo hi l (shiftIns key lo (lget l i) i l i) := by
        refine ⟨hperm, ?_⟩
        intro k hk
        rw [hsh.2.1 k (by omega)]
      have ihr := ih (shiftIns key lo (lget l i) i l i) (i + 1) (by omega)
        (by rw [hperm.length_eq]; exact hlen) (by omega) (by omega)
        (fun a b ha hab hbm => hsh.2.2 a b ha hab (by omega))
      exact ⟨hseg1.trans ihr.1, ihr.2⟩
    · next hcond =>
      have hieq : i = hi + 1 := by omega
      exact ⟨SegPerm.refl lo hi l, fun a b ha hab hbm => hsorted a b ha hab (by omega)⟩

/-- `insertionRange` sorts the segment `[lo, hi]` in place. -/
theorem insertionRange_spec (key : α → κ) (l : List α) (lo hi : Nat)
    (h1 : lo ≤ hi) (h2 : hi < l.length) :
    SegPerm lo hi l (insertionRange key l lo hi) ∧
    SortedSeg key (insertionRange key l lo hi) lo hi := by
  unfold insertionRange
  exact insLoop_spec key lo hi (hi + 1) l (lo + 1) (by omega) h2 (by omega) (by omega)
    (fun a b ha hab hbm => by
      have : a = b := by omega
      rw [this])

end InsertionFacts

/-! ## Heapsort specification -/

section HeapFacts

variable {α : Type} [Inhabited α] {κ : Type} [LinearOrder κ]

/-- Invariant of `aheapsort_`'s hole-moving sift: starting from root `r` with
the hole at `i` (1-based heap indices over the segment at `lo`, heap size
`n`), dropping `tmp` down restores the heap property for every parent from
`r` on.  The side conditions track the classical hole invariants: pairs away
from the hole are heap-ordered, the hole's children are dominated by the
hole's parent, and `tmp` is dominated by the hole's parent. -/
theorem siftDown_spec (key : α → κ) (lo n : Nat) (tmp : α) (r : Nat) (fuel : Nat) :
    ∀ (l : List α) (i : Nat),
      1 ≤ r → r ≤ i → i ≤ n → lo + n ≤ l.length → n + 1 ≤ i + fuel →
      (i = r ∨ r ≤ i / 2) →
      (∀ c, 2 ≤ c → c ≤ n → r ≤ c / 2 → c ≠ i → c / 2 ≠ i →
        key (lget l (lo + c - 1)) ≤ key (lget l (lo + c / 2 - 1))) →
      (∀ c, 2 ≤ c → c ≤ n → c / 2 = i → r < i →
        key (lget l (lo + c - 1)) ≤ key (lget l (lo + i / 2 - 1))) →
      (r < i → key tmp ≤ key (lget l (lo + i / 2 - 1))) →
      (siftDown key lo n tmp fuel l i (2 * i)).Perm (l.set (lo + i - 1) tmp) ∧
      (∀ k, k < lo + i - 1 ∨ lo + n - 1 < k →
        (siftDown key lo n tmp fuel l i (2 * i))[k]? = l[k]?) ∧
      (∀ c, 2 ≤ c → c ≤ n → r ≤ c / 2 →
        key (lget (siftDown key lo n tmp fuel l i (2 * i)) (lo + c - 1)) ≤
          key (lget (siftDown key lo n tmp fuel l i (2 * i)) (lo + c / 2 - 1))) := by
  induction fuel with
  | zero =>
    intro l i hr hri hin hlen hfuel _ _ _ _
    omega
  | succ fuel ih =>
    intro l i hr hri hin hlen hfuel hpath hA hB hC
    have hilen : lo + i - 1 < l.length := by omega
    simp only [siftDown]
    split
    · next hjn =>
      set j' := if 2 * i < n ∧ key (lget l (lo + 2 * i - 1)) < key (lget l (lo + 2 * i)) then
        2 * i + 1 else 2 * i with hjdef
      have hj'cases : j' = 2 * i ∨ j' = 2 * i + 1 := by
        rw [hjdef]; split
        · right; rfl
        · left; rfl
      have hj'n : j' ≤ n := by
        rw [hjdef]; split
        · next hc => omega
        · exact hjn
      have hj'i : i < j' := by omega
      have hj'2 : j' / 2 = i := by omega
      have hj'pos : lo + j' - 1 < l.length := by omega
      have hmax : ∀ c, 2 ≤ c → c ≤ n → c / 2 = i →
          key (lget l (lo + c - 1)) ≤ key (lget l (lo + j' - 1)) := by
        intro c hc2 hcn hci
        have hcval : c = 2 * i ∨ c = 2 * i + 1 := by omega
        rcases hj'cases with he | he
        · rcases hcval with hce | hce
          · rw [hce, he]
          · rw [hce, he]
            have hnlt : ¬ (2 * i < n ∧ key (lget l (lo + 2 * i - 1)) < key (lget l (lo + 2 * i))) := by
              intro hcontra
              rw [hjdef] at he
              rw [if_pos hcontra] at he
              omega
            have h2in : 2 * i < n := by omega
            have := fun h => hnlt ⟨h2in, h⟩
            have hgd : lo + (2 * i + 1) - 1 = lo + 2 * i := by omega
            rw [hgd]
            exact le_of_not_lt (this)
        · rcases hcval with hce | hce
          · rw [hce, he]
            have hcond : 2 * i < n ∧ key (lget l (lo + 2 * i - 1)) < key (lget l (lo + 2 * i)) := by
              by_contra hcontra
              rw [hjdef, if_neg hcontra] at he
              omega
            have hgd : lo + (2 * i + 1) - 1 = lo + 2 * i := by omega
            rw [hgd]
            exact le_of_lt hcond.2
          · rw [hce, he]
      split
      · next hdesc =>
        -- descend: move the larger child up into the hole, recurse at j'
        have hA' : ∀ c, 2 ≤ c → c ≤ n → r ≤ c / 2 → c ≠ j' → c / 2 ≠ j' →
            key (lget (l.set (lo + i - 1) (lget l (lo + j' - 1))) (lo + c - 1)) ≤
              key (lget (l.set (lo + i - 1) (lget l (lo + j' - 1))) (lo + c / 2 - 1)) := by
          intro c hc2 hcn hcr hcj hcj2
          by_cases hci : c = i
          · have hc2r : r < i := by
              rcases hpath with hp | hp
              · omega
              · omega
            rw [hci, lget_set_self _ _ hilen, lget_set_ne _ _ _ _ (by omega)]
            exact hB j' (by omega) hj'n hj'2 hc2r
          · by_cases hci2 : c / 2 = i
            · rw [hci2, lget_set_self _ _ hilen, lget_set_ne _ _ _ _ (by omega)]
              exact hmax c hc2 hcn hci2
            · rw [lget_set_ne _ _ _ _ (by omega), lget_set_ne _ _ _ _ (by omega)]
              exact hA c hc2 hcn hcr hci hci2
        have hB' : ∀ c, 2 ≤ c → c ≤ n → c / 2 = j' → r < j' →
            key (lget (l.set (lo + i - 1) (lget l (lo + j' - 1))) (lo + c - 1)) ≤
              key (lget (l.set (lo + i - 1) (lget l (lo + j' - 1))) (lo + j' / 2 - 1)) := by
          intro c hc2 hcn hcj _
          have hcne : c ≠ i := by omega
          rw [hj'2, lget_set_self _ _ hilen, lget_set_ne _ _ _ _ (by omega)]
          have hAc := hA c hc2 hcn (by omega) (by omega) (by omega)
          rw [hcj] at hAc
          exact hAc
        have hC' : r < j' →
            key tmp ≤ key (lget (l.set (lo + i - 1) (lget l (lo + j' - 1))) (lo + j' / 2 - 1)) := by
          intro _
          rw [hj'2, lget_set_self _ _ hilen]
          exact le_of_lt hdesc
        have ihr := ih (l.set (lo + i - 1) (lget l (lo + j' - 1))) j' hr (by omega) hj'n
          (by simpa using hlen) (by omega) (by omega) hA' hB' hC'
        rw [two_mul j'] at ihr
        refine ⟨?_, ?_, ihr.2.2⟩
        · refine ihr.1.trans ?_
          exact set_set_perm l (by omega) hilen hj'pos tmp
        · intro k hk
          rw [ihr.2.1 k (by omega), List.getElem?_set_ne (by omega)]
      · next hplace =>
        -- place tmp in the hole
        refine ⟨List.Perm.refl _, fun k hk => List.getElem?_set_ne (by omega), ?_⟩
        intro c hc2 hcn hcr
        by_cases hci : c = i
        · have hc2r : r < i := by
            rcases hpath with hp | hp
            · omega
            · omega
          rw [hci, lget_set_self _ _ hilen, lget_set_ne _ _ _ _ (by omega)]
          exact hC hc2r
        · by_cases hci2 : c / 2 = i
          · rw [hci2, lget_set_self _ _ hilen, lget_set_ne _ _ _ _ (by omega)]
            exact le_trans (hmax c hc2 hcn hci2) (le_of_not_lt hplace)
          · rw [lget_set_ne _ _ _ _ (by omega), lget_set_ne _ _ _ _ (by omega)]
            exact hA c hc2 hcn hcr hci hci2
    · next hjn =>
      -- no children in range
      refine ⟨List.Perm.refl _, fun k hk => List.getElem?_set_ne (by omega), ?_⟩
      intro c hc2 hcn hcr
      by_cases hci : c = i
      · have hc2r : r < i := by
          rcases hpath with hp | hp
          · omega
          · omega
        rw [hci, lget_set_self _ _ hilen, lget_set_ne _ _ _ _ (by omega)]
        exact hC hc2r
      · by_cases hci2 : c / 2 = i
        · omega
        · rw [lget_set_ne _ _ _ _ (by omega), lget_set_ne _ _ _ _ (by omega)]
          exact hA c hc2 hcn hcr hci hci2

/-- Heap construction: after sifting nodes `k, k-1, …, 1` the whole segment
satisfies the heap property. -/
theorem heapify_spec (key : α → κ) (lo n : Nat) :
    ∀ (k : Nat) (l : List α), 2 * k ≤ n → lo + n ≤ l.length →
      (∀ c, 2 ≤ c → c ≤ n → k < c / 2 →
        key (lget l (lo + c - 1)) ≤ key (lget l (lo + c / 2 - 1))) →
      (heapify key lo n k l).Perm l ∧
      (∀ p, p < lo ∨ lo + n - 1 < p → (heapify key lo n k l)[p]? = l[p]?) ∧
      (∀ c, 2 ≤ c → c ≤ n →
        key (lget (heapify key lo n k l) (lo + c - 1)) ≤
          key (lget (heapify key lo n k l) (lo + c / 2 - 1))) := by
  intro k
  induction k with
  | zero =>
    intro l h2k hlen hpart
    simp only [heapify]
    exact ⟨List.Perm.refl l, fun _ _ => trivial, fun c hc2 hcn => hpart c hc2 hcn (by omega)⟩
  | succ k ih =>
    intro l h2k hlen hpart
    simp only [heapify]
    have hs := siftDown_spec key lo n (lget l (lo + k)) (k + 1) (n + 1) l (k + 1)
      (by omega) (le_refl (k + 1)) (by omega) hlen (by omega) (Or.inl rfl)
      (fun c hc2 hcn hcr hci hci2 => hpart c hc2 hcn (by omega))
      (fun c _ _ _ hlt => absurd hlt (lt_irrefl (k + 1)))
      (fun hlt => absurd hlt (lt_irrefl (k + 1)))
    have hpos : lo + (k + 1) - 1 = lo + k := by omega
    rw [hpos] at hs
    have hperm : (siftDown key lo n (lget l (lo + k)) (n + 1) l (k + 1) (2 * (k + 1))).Perm l := by
      refine hs.1.trans ?_
      rw [set_lget_self]
    have ihr := ih (siftDown key lo n (lget l (lo + k)) (n + 1) l (k + 1) (2 * (k + 1)))
      (by omega) (by rw [hperm.length_eq]; exact hlen)
      (fun c hc2 hcn hck => hs.2.2 c hc2 hcn (by omega))
    refine ⟨ihr.1.trans hperm, ?_, ihr.2.2⟩
    intro p hp
    rw [ihr.2.1 p hp, hs.2.1 p (by omega)]

/-- In a heap the root key dominates every key. -/
theorem heap_root_max (key : α → κ) (lo : Nat) (l : List α) (m : Nat)
    (hheap : ∀ c, 2 ≤ c → c ≤ m → key (lget l (lo + c - 1)) ≤ key (lget l (lo + c / 2 - 1))) :
    ∀ c, 1 ≤ c → c ≤ m → key (lget l (lo + c - 1)) ≤ key (lget l lo) := by
  intro c
  induction c using Nat.strong_induction_on with
  | _ c ih =>
    intro hc1 hcm
    rcases Nat.eq_or_lt_of_le hc1 with he | hlt
    · have harith : lo + c - 1 = lo := by omega
      rw [harith]
    · refine le_trans (hheap c (by omega) hcm) (ih (c / 2) (by omega) (by omega) (by omega))

/-- Extraction phase invariant: with a heap of size `m` whose entries are all
below the already-sorted tail `(m, N]`, repeatedly extracting the maximum
sorts the whole segment. -/
theorem extractLoop_spec (key : α → κ) (lo N : Nat) :
    ∀ (m : Nat) (l : List α), m ≤ N → lo + N ≤ l.length →
      (∀ c, 2 ≤ c → c ≤ m → key (lget l (lo + c - 1)) ≤ key (lget l (lo + c / 2 - 1))) →
      (∀ a b, 1 ≤ a → a ≤ b → b ≤ N → m < b →
        key (lget l (lo + a - 1)) ≤ key (lget l (lo + b - 1))) →
      (extractLoop key lo m l).Perm l ∧
      (∀ p, p < lo ∨ lo + m - 1 < p → (extractLoop key lo m l)[p]? = l[p]?) ∧
      (∀ a b, 1 ≤ a → a ≤ b → b ≤ N →
        key (lget (extractLoop key lo m l) (lo + a - 1)) ≤
          key (lget (extractLoop key lo m l) (lo + b - 1))) := by
  intro m
  induction m using Nat.strong_induction_on with
  | _ m ihm =>
    match m with
    | 0 =>
      intro l hmN hlen hheap htail
      simp only [extractLoop]
      exact ⟨List.Perm.refl l, fun _ _ => trivial,
        fun a b ha hab hbN => by
          rcases Nat.eq_or_lt_of_le hab with he | hlt
          · rw [he]
          · exact htail a b ha hab hbN (by omega)⟩
    | 1 =>
      intro l hmN hlen hheap htail
      simp only [extractLoop]
      refine ⟨List.Perm.refl l, fun _ _ => trivial, ?_⟩
      intro a b ha hab hbN
      rcases Nat.eq_or_lt_of_le hab with he | hlt
      · rw [he]
      · exact htail a b ha hab hbN (by omega)
    | m + 2 =>
      intro l hmN hlen hheap htail
      simp only [extractLoop]
      have hllen : lo + m + 1 < l.length := by omega
      have hlolen : lo < l.length := by omega
      have hroot := heap_root_max key lo l (m + 2) hheap
      -- the displaced last entry and the array with the root moved to the end
      have hs := siftDown_spec key lo (m + 1) (lget l (lo + m + 1)) 1 (m + 2)
        (l.set (lo + m + 1) (lget l lo)) 1
        (le_refl 1) (le_refl 1) (by omega) (by simp; omega) (by omega) (Or.inl rfl)
        (fun c hc2 hcn hcr hci hci2 => by
          rw [lget_set_ne _ _ _ _ (by omega), lget_set_ne _ _ _ _ (by omega)]
          exact hheap c hc2 (by omega))
        (fun c _ _ _ hlt => absurd hlt (lt_irrefl 1))
        (fun hlt => absurd hlt (lt_irrefl 1))
      rw [Nat.mul_one] at hs
      have hposlo : lo + 1 - 1 = lo := by omega
      rw [hposlo] at hs
      set lsift := siftDown key lo (m + 1) (lget l (lo + m + 1)) (m + 2)
        (l.set (lo + m + 1) (lget l lo)) 1 2 with hlsiftdef
      have hpermsift : lsift.Perm l := by
        refine hs.1.trans ?_
        refine (set_set_perm l (a := lo + m + 1) (b := lo) (by omega) hllen hlolen
          (lget l (lo + m + 1))).trans ?_
        rw [set_lget_self]
      have hlsiftlen : lsift.length = l.length := hpermsift.length_eq
      -- values in the tail of lsift
      have hv_last : lget lsift (lo + m + 1) = lget l lo := by
        unfold lget
        rw [hs.2.1 (lo + m + 1) (by omega)]
        rw [List.getElem?_set_self (by simpa using hllen)]
        rfl
      have hv_far : ∀ b, m + 2 < b → b ≤ N → lget lsift (lo + b - 1) = lget l (lo + b - 1) := by
        intro b hb1 hb2
        unfold lget
        rw [hs.2.1 (lo + b - 1) (by omega), List.getElem?_set_ne (by omega)]
      -- all keys still in the shrunken heap are at most the old root key
      have hbound : ∀ a, 1 ≤ a → a ≤ m + 1 →
          key (lget lsift (lo + a - 1)) ≤ key (lget l lo) := by
        have hsp : SegPerm lo (lo + m) ((l.set (lo + m + 1) (lget l lo)).set lo (lget l (lo + m + 1))) lsift := by
          refine ⟨hs.1, ?_⟩
          intro p hp
          rw [hs.2.1 p (by omega), List.getElem?_set_ne (by omega : lo ≠ p)]
        have hin : ∀ p, lo ≤ p → p ≤ lo + m →
            key (lget ((l.set (lo + m + 1) (lget l lo)).set lo (lget l (lo + m + 1))) p) ≤
              key (lget l lo) := by
          intro p hp1 hp2
          rcases Nat.eq_or_lt_of_le hp1 with he | hlt
          · rw [← he, lget_set_self _ _ (by simp; omega)]
            have := hroot (m + 2) (by omega) (le_refl (m + 2))
            have harith : lo + (m + 2) - 1 = lo + m + 1 := by omega
            rw [harith] at this
            exact this
          · rw [lget_set_ne _ _ _ _ (by omega), lget_set_ne _ _ _ _ (by omega)]
            have := hroot (p - lo + 1) (by omega) (by omega)
            have harith : lo + (p - lo + 1) - 1 = p := by omega
            rw [harith] at this
            exact this
        have htrans := segPerm_key_bound hsp (by omega)
          (by simp; omega) (fun x => key x ≤ key (lget l lo)) hin
        intro a ha1 ha2
        have := htrans (lo + a - 1) (by omega) (by omega)
        exact this
      -- recursion on the shrunken heap
      have ihr := ihm (m + 1) (by omega) lsift (by omega) (by omega)
        (fun c hc2 hcn => hs.2.2 c hc2 hcn (by omega))
        (by
          intro a b ha hab hbN hmb
          rcases Nat.lt_or_ge b (m + 2) with hb | hb
          · omega
          · rcases Nat.eq_or_lt_of_le hb with he | hlt
            · have harithb : lo + b - 1 = lo + m + 1 := by omega
              rw [harithb, hv_last]
              rcases Nat.lt_or_ge a (m + 2) with haa | haa
              · exact hbound a ha (by omega)
              · have haritha : lo + a - 1 = lo + m + 1 := by omega
                rw [haritha, hv_last]
            · rw [hv_far b hlt hbN]
              have hlob : key (lget l lo) ≤ key (lget l (lo + b - 1)) := by
                have := htail 1 b (le_refl 1) (by omega) hbN (by omega)
                rw [hposlo] at this
                exact this
              rcases Nat.lt_or_ge a (m + 2) with haa | haa
              · exact le_trans (hbound a ha (by omega)) hlob
              · rcases Nat.eq_or_lt_of_le haa with hea | hlta
                · have haritha : lo + a - 1 = lo + m + 1 := by omega
                  rw [haritha, hv_last]
                  exact hlob
                · rw [hv_far a hlta (by omega)]
                  exact htail a b ha hab hbN (by omega))
      refine ⟨ihr.1.trans hpermsift, ?_, ihr.2.2⟩
      intro p hp
      have e1 : (extractLoop key lo (m + 1) lsift)[p]? = lsift[p]? := ihr.2.1 p (by omega)
      have e2 : lsift[p]? = (l.set (lo + m + 1) (lget l lo))[p]? := hs.2.1 p (by omega)
      have e3 : (l.set (lo + m + 1) (lget l lo))[p]? = l[p]? := List.getElem?_set_ne (by omega)
      rw [e1, e2, e3]

/-- `aheapsort_` sorts the segment `[lo, hi]` in place. -/
theorem heapsortRange_spec (key : α → κ) (l : List α) (lo hi : Nat)
    (h1 : lo ≤ hi) (h2 : hi < l.length) :
    SegPerm lo hi l (heapsortRange key l lo hi) ∧
    SortedSeg key (heapsortRange key l lo hi) lo hi := by
  have hn1 : 1 ≤ hi + 1 - lo := by omega
  have hhf := heapify_spec key lo (hi + 1 - lo) ((hi + 1 - lo) / 2) l (by omega) (by omega)
    (fun c hc2 hcn hck => by omega)
  have hel := extractLoop_spec key lo (hi + 1 - lo) (hi + 1 - lo)
    (heapify key lo (hi + 1 - lo) ((hi + 1 - lo) / 2) l) (le_refl _)
    (by rw [hhf.1.length_eq]; omega) hhf.2.2
    (fun a b ha hab hbN hmb => by omega)
  unfold heapsortRange
  constructor
  · refine ⟨hel.1.trans hhf.1, ?_⟩
    intro k hk
    rw [hel.2.1 k (by omega), hhf.2.1 k (by omega)]
  · intro i j hij1 hij2 hij3
    have hij4 : j < l.length := by omega
    have := hel.2.2 (i - lo + 1) (j - lo + 1) (by omega) (by omega) (by omega)
    have hai : lo + (i - lo + 1) - 1 = i := by omega
    have haj : lo + (j - lo + 1) - 1 = j := by omega
    rw [hai, haj] at this
    exact this

end HeapFacts

/-! ## The introsort driver -/

section QsortFacts

variable {α : Type} [Inhabited α] {κ : Type} [LinearOrder κ]

/-- Correctness of the `aquicksort_` driver: with enough fuel it permutes the
segment `[lo, hi]` in place and leaves it sorted, whatever the depth budget. -/
theorem qsortRec_spec (key : α → κ) :
    ∀ (fuel : Nat) (l : List α) (lo hi : Nat) (dl : Int),
      lo ≤ hi → hi < l.length → hi + 1 - lo ≤ fuel →
      SegPerm lo hi l (qsortRec key fuel l lo hi dl).1 ∧
      SortedSeg key (qsortRec key fuel l lo hi dl).1 lo hi := by
  intro fuel
  induction fuel with
  | zero =>
    intro l lo hi dl h1 h2 h3
    omega
  | succ fuel ih =>
    intro l lo hi dl h1 h2 h3
    simp only [qsortRec]
    split
    · next hsmall => exact insertionRange_spec key l lo hi h1 h2
    · next hbig =>
      split
      · next hdl => exact heapsortRange_spec key l lo hi h1 h2
      · next hdl =>
        have hsize : lo + 16 ≤ hi := by
          unfold smallQuicksort at hbig
          omega
        have hap := apartition_spec key l lo hi h2 hsize
        obtain ⟨hseg1, hp1, hp2, hlow, hupp⟩ := hap
        set l1 := (apartition key l lo hi).1 with hl1
        set p := (apartition key l lo hi).2 with hp
        have hlen1 : l1.length = l.length := hseg1.length_eq
        split
        · next hless =>
          -- left partition smaller: sort `[lo, p-1]` first, then `[p+1, hi]`
          have hL := ih l1 lo (p - 1) (dl - 1) (by omega) (by omega) (by omega)
          set l2 := (qsortRec key fuel l1 lo (p - 1) (dl - 1)).1 with hl2
          have hlen2 : l2.length = l.length := by rw [hL.1.length_eq]; exact hlen1
          have hR := ih l2 (p + 1) hi (qsortRec key fuel l1 lo (p - 1) (dl - 1)).2
            (by omega) (by omega) (by omega)
          set lf := (qsortRec key fuel l2 (p + 1) hi
            (qsortRec key fuel l1 lo (p - 1) (dl - 1)).2).1 with hlf
          have hlenf : lf.length = l.length := by rw [hR.1.length_eq]; exact hlen2
          have hpivot2 : lget l2 p = lget l1 p := hL.1.lget_eq p (Or.inr (by omega))
          have hpivotf : lget lf p = lget l1 p := by
            rw [hR.1.lget_eq p (Or.inl (by omega))]
            exact hpivot2
          have hleftPt : ∀ k, k ≤ p → lget lf k = lget l2 k :=
            fun k hk => hR.1.lget_eq k (Or.inl (by omega))
          have hrightPt : ∀ k, p ≤ k → lget l2 k = lget l1 k :=
            fun k hk => hL.1.lget_eq k (Or.inr (by omega))
          have hboundL : ∀ k, lo ≤ k → k ≤ p - 1 →
              key (lget lf k) ≤ key (lget l1 p) := by
            intro k hk1 hk2
            rw [hleftPt k (by omega)]
            exact segPerm_key_bound hL.1 (by omega) (by omega)
              (fun x => key x ≤ key (lget l1 p))
              (fun k' h1' h2' => hlow k' h1' (by omega)) k hk1 hk2
          have hboundR : ∀ k, p + 1 ≤ k → k ≤ hi →
              key (lget l1 p) ≤ key (lget lf k) := by
            intro k hk1 hk2
            refine segPerm_key_bound hR.1 (by omega) (by omega)
              (fun x => key (lget l1 p) ≤ key x) ?_ k hk1 hk2
            intro k' h1' h2'
            rw [hrightPt k' (by omega)]
            exact hupp k' (by omega) h2'
          refine ⟨hseg1.trans ((hL.1.mono (by omega) (by omega)).trans
            (hR.1.mono (by omega) (by omega))), ?_⟩
          intro i j hi1 hij hj2
          rcases Nat.lt_or_ge j p with hjp | hjp
          · rw [hleftPt i (by omega), hleftPt j (by omega)]
            exact hL.2 i j hi1 hij (by omega)
          · rcases Nat.lt_or_ge i p with hip | hip
            · rcases Nat.eq_or_lt_of_le hjp with hje | hjl
              · rw [← hje, hpivotf]
                exact hboundL i hi1 (by omega)
              · exact le_trans (hboundL i hi1 (by omega)) (hboundR j (by omega) hj2)
            · rcases Nat.eq_or_lt_of_le hip with hie | hil
              · rcases Nat.eq_or_lt_of_le hjp with hje | hjl
                · rw [← hie, ← hje]
                · rw [← hie, hpivotf]
                  exact hboundR j (by omega) hj2
              · exact hR.2 i j (by omega) hij hj2
        · next hless =>
          -- right partition smaller or equal: sort `[p+1, hi]` first, then `[lo, p-1]`
          have hR := ih l1 (p + 1) hi (dl - 1) (by omega) (by omega) (by omega)
          set l2 := (qsortRec key fuel l1 (p + 1) hi (dl - 1)).1 with hl2
          have hlen2 : l2.length = l.length := by rw [hR.1.length_eq]; exact hlen1
          have hL := ih l2 lo (p - 1) (qsortRec key fuel l1 (p + 1) hi (dl - 1)).2
            (by omega) (by omega) (by omega)
          set lf := (qsortRec key fuel l2 lo (p - 1)
            (qsortRec key fuel l1 (p + 1) hi (dl - 1)).2).1 with hlf
          have hlenf : lf.length = l.length := by rw [hL.1.length_eq]; exact hlen2
          have hpivot2 : lget l2 p = lget l1 p := hR.1.lget_eq p (Or.inl (by omega))
          have hpivotf : lget lf p = lget l1 p := by
            rw [hL.1.lget_eq p (Or.inr (by omega))]
            exact hpivot2
          have hrightPt : ∀ k, p ≤ k → lget lf k = lget l2 k :=
            fun k hk => hL.1.lget_eq k (Or.inr (by omega))
          have hleftPt : ∀ k, k ≤ p → lget l2 k = lget l1 k :=
            fun k hk => hR.1.lget_eq k (Or.inl (by omega))
          have hboundR : ∀ k, p + 1 ≤ k → k ≤ hi →
              key (lget l1 p) ≤ key (lget lf k) := by
            intro k hk1 hk2
            rw [hrightPt k (by omega)]
            exact segPerm_key_bound hR.1 (by omega) (by omega)
              (fun x => key (lget l1 p) ≤ key x)
              (fun k' h1' h2' => hupp k' (by omega) h2') k hk1 hk2
          have hboundL : ∀ k, lo ≤ k → k ≤ p - 1 →
              key (lget lf k) ≤ key (lget l1 p) := by
            intro k hk1 hk2
            refine segPerm_key_bound hL.1 (by omega) (by omega)
              (fun x => key x ≤ key (lget l1 p)) ?_ k hk1 hk2
            intro k' h1' h2'
            rw [hleftPt k' (by omega)]
            exact hlow k' h1' (by omega)
          refine ⟨hseg1.trans ((hR.1.mono (by omega) (by omega)).trans
            (hL.1.mono (by omega) (by omega))), ?_⟩
          intro i j hi1 hij hj2
          rcases Nat.lt_or_ge j p with hjp | hjp
          · exact hL.2 i j hi1 hij (by omega)
          · rcases Nat.lt_or_ge i p with hip | hip
            · rcases Nat.eq_or_lt_of_le hjp with hje | hjl
              · rw [← hje, hpivotf]
                exact hboundL i hi1 (by omega)
              · exact le_trans (hboundL i hi1 (by omega)) (hboundR j (by omega) hj2)
            · rcases Nat.eq_or_lt_of_le hip with hie | hil
              · rcases Nat.eq_or_lt_of_le hjp with hje | hjl
                · rw [← hie, ← hje]
                · rw [← hie, hpivotf]
                  exact hboundR j (by omega) hj2
              · rw [hrightPt i (by omega), hrightPt j (by omega)]
                exact hR.2 i j (by omega) hij hj2

/-- Top-level correctness of the embedded numpy sort: the output is a
permutation of the input and its keys are non-decreasing. -/
theorem npSortBy_perm (key : α → κ) (l : List α) : (npSortBy key l).Perm l := by
  unfold npSortBy
  split
  · exact List.Perm.refl l
  · next hne =>
    have hlen : 0 < l.length := by
      cases l with
      | nil => simp at hne
      | cons a t => simp
    exact (qsortRec_spec key l.length l 0 (l.length - 1)
      (2 * (Nat.log2 l.length : Int)) (by omega) (by omega) (by omega)).1.1

/-- The sorted output of the embedded numpy sort. -/
theorem npSortBy_sorted (key : α → κ) (l : List α) :
    List.Pairwise (fun a b => key a ≤ key b) (npSortBy key l) := by
  by_cases hll : l.isEmpty
  · unfold npSortBy
    rw [if_pos hll]
    cases l with
    | nil => exact List.Pairwise.nil
    | cons a t => simp at hll
  · have hlen : 0 < l.length := by
      cases l with
      | nil => simp at hll
      | cons a t => simp
    have hs := qsortRec_spec key l.length l 0 (l.length - 1)
      (2 * (Nat.log2 l.length : Int)) (by omega) (by omega) (by omega)
    have hres : npSortBy key l = (qsortRec key l.length l 0 (l.length - 1)
        (2 * (Nat.log2 l.length : Int))).1 := by
      unfold npSortBy
      rw [if_neg hll]
    rw [hres]
    rw [List.pairwise_iff_getElem]
    intro i j hilen hjlen hij
    have hlenq : (qsortRec key l.length l 0 (l.length - 1)
        (2 * (Nat.log2 l.length : Int))).1.length = l.length := hs.1.length_eq
    have := hs.2 i j (by omega) (by omega) (by omega)
    rw [lget_eq_getElem _ i (by omega), lget_eq_getElem _ j (by omega)] at this
    exact this

end QsortFacts

/-! ## Pipeline facts -/

section PipelineFacts

theorem headI_mem {γ : Type} [Inhabited γ] (l : List γ) (h : l ≠ []) : l.headI ∈ l := by
  cases l with
  | nil => exact absurd rfl h
  | cons a t => exact List.mem_cons_self a t

theorem cumsumFrom_length (acc : ℚ) (l : List ℚ) : (cumsumFrom acc l).length = l.length := by
  induction l generalizing acc with
  | nil => rfl
  | cons x xs ih => simp [cumsumFrom, ih]

theorem cumsum_length (l : List ℚ) : (cumsum l).length = l.length := cumsumFrom_length 0 l

theorem cumsumFrom_getLastD (acc : ℚ) (l : List ℚ) :
    (cumsumFrom acc l).getLastD acc = acc + l.sum := by
  induction l generalizing acc with
  | nil => simp [cumsumFrom]
  | cons x xs ih =>
    show (cumsumFrom acc (x :: xs)).getLastD acc = acc + (x :: xs).sum
    have : cumsumFrom acc (x :: xs) = (acc + x) :: cumsumFrom (acc + x) xs := rfl
    rw [this, List.getLastD_cons, ih (acc + x), List.sum_cons, add_assoc]

theorem cumsum_getLastD (l : List ℚ) : (cumsum l).getLastD 0 = l.sum := by
  have := cumsumFrom_getLastD 0 l
  rw [zero_add] at this
  exact this

/-- Unfolding of `process_dataframe` with the sorted, normalized input named. -/
theorem process_dataframe_def (data : List TradeRow) (capital : ℚ) :
    process_dataframe data capital =
      ((npSortBy (fun r : TradeRow => r.date)
          (data.map fun r => { r with date := pdNormalize r.date })).zip
        (cumsum ((npSortBy (fun r : TradeRow => r.date)
          (data.map fun r => { r with date := pdNormalize r.date })).map fun r => r.pnl))).map
        (fun rc => enrichRow capital rc.1 rc.2) := rfl

/-- Columns of the enriched table that depend only on the sorted row project
onto the sorted, normalized input. -/
theorem process_dataframe_map_fst {β : Type} (data : List TradeRow) (capital : ℚ)
    (f : EnrichedTrade → β) (g : TradeRow → β) (h : ∀ r c, f (enrichRow capital r c) = g r) :
    (process_dataframe data capital).map f =
      (npSortBy (fun r : TradeRow => r.date)
        (data.map fun r => { r with date := pdNormalize r.date })).map g := by
  rw [process_dataframe_def, List.map_map]
  have hlen : (npSortBy (fun r : TradeRow => r.date)
      (data.map fun r => { r with date := pdNormalize r.date })).length ≤
      (cumsum ((npSortBy (fun r : TradeRow => r.date)
        (data.map fun r => { r with date := pdNormalize r.date })).map fun r => r.pnl)).length := by
    rw [cumsum_length, List.length_map]
  calc ((npSortBy (fun r : TradeRow => r.date)
        (data.map fun r => { r with date := pdNormalize r.date })).zip
          (cumsum ((npSortBy (fun r : TradeRow => r.date)
            (data.map fun r => { r with date := pdNormalize r.date })).map fun r => r.pnl))).map
        (f ∘ fun rc => enrichRow capital rc.1 rc.2)
      = ((npSortBy (fun r : TradeRow => r.date)
          (data.map fun r => { r with date := pdNormalize r.date })).zip
            (cumsum ((npSortBy (fun r : TradeRow => r.date)
              (data.map fun r => { r with date := pdNormalize r.date })).map fun r => r.pnl))).map
          (g ∘ Prod.fst) := List.map_congr_left (fun rc _ => h rc.1 rc.2)
    _ = _ := by
        rw [← List.map_map, List.map_fst_zip _ _ hlen]

/-- The `Cumulative P&L` column is the running sum of the sorted P&L column. -/
theorem process_dataframe_map_cum (data : List TradeRow) (capital : ℚ) :
    (process_dataframe data capital).map (fun r => r.cum) =
      cumsum ((npSortBy (fun r : TradeRow => r.date)
        (data.map fun r => { r with date := pdNormalize r.date })).map fun r => r.pnl) := by
  rw [process_dataframe_def, List.map_map]
  have hlen : (cumsum ((npSortBy (fun r : TradeRow => r.date)
      (data.map fun r => { r with date := pdNormalize r.date })).map fun r => r.pnl)).length ≤
      (npSortBy (fun r : TradeRow => r.date)
        (data.map fun r => { r with date := pdNormalize r.date })).length := by
    rw [cumsum_length, List.length_map]
  exact List.map_snd_zip _ _ hlen

/-- `pdNormalize` is idempotent. -/
theorem pdNormalize_idem (t : Int) : pdNormalize (pdNormalize t) = pdNormalize t := by
  unfold pdNormalize secondsPerDay
  omega

/-- `classifyResult` is the three-way sign rule. -/
theorem classifyResult_eq (q : ℚ) :
    classifyResult q = if q > 0 then "Win" else if q < 0 then "Loss" else "Break Even" := by
  by_cases h0 : q = 0
  · simp [classifyResult, h0]
  · by_cases h1 : q > 0
    · simp [classifyResult, h0, h1]
    · have h2 : q < 0 := lt_of_le_of_ne (le_of_not_lt h1) h0
      simp [classifyResult, h0, h1, h2]

/-- Summing fibers over a complete duplicate-free key list recovers the full
sum. -/
theorem sum_fiber {E K : Type} [BEq K] [LawfulBEq K] (pnl : E → ℚ) (keyf : E → K) :
    ∀ (keys : List K) (df : List E), keys.Nodup → (∀ r ∈ df, keyf r ∈ keys) →
      (keys.map fun k => ((df.filter fun r => keyf r == k).map pnl).sum).sum =
        (df.map pnl).sum := by
  intro keys
  induction keys with
  | nil =>
    intro df _ hcomp
    cases df with
    | nil => rfl
    | cons r t => exact absurd (hcomp r (List.mem_cons_self r t)) (List.not_mem_nil _)
  | cons k ks ih =>
    intro df hnd hcomp
    simp only [List.map_cons, List.sum_cons]
    have hperm := (List.filter_append_perm (fun r => keyf r == k) df).map pnl
    have hsplit : (df.map pnl).sum =
        ((df.filter fun r => keyf r == k).map pnl).sum +
          ((df.filter fun r => !(keyf r == k)).map pnl).sum := by
      rw [← hperm.sum_eq, List.map_append, List.sum_append]
    rw [hsplit]
    congr 1
    have hfiber : ∀ k' ∈ ks,
        ((df.filter fun r => keyf r == k').map pnl).sum =
          (((df.filter fun r => !(keyf r == k)).filter
            fun r => keyf r == k').map pnl).sum := by
      intro k' hk'
      have hkk : k ≠ k' := fun he => (List.nodup_cons.mp hnd).1 (he ▸ hk')
      rw [List.filter_filter]
      have hcong : df.filter (fun r => keyf r == k') =
          df.filter (fun r => (keyf r == k') && !(keyf r == k)) := by
        apply List.filter_congr
        intro r _
        by_cases h : (keyf r == k') = true
        · have heq : keyf r = k' := eq_of_beq h
          have h2 : (keyf r == k) = false := by
            rw [beq_eq_false_iff_ne, heq]
            exact fun hh => hkk hh.symm
          rw [h, h2]
          rfl
        · have h' : (keyf r == k') = false := by
            cases hb : keyf r == k'
            · rfl
            · exact absurd hb h
          rw [h']
          rfl
      rw [hcong]
    rw [List.map_congr_left hfiber]
    refine ih (df.filter fun r => !(keyf r == k)) (List.nodup_cons.mp hnd).2 ?_
    intro r hr
    obtain ⟨hrdf, hrk⟩ := List.mem_filter.mp hr
    have := hcomp r hrdf
    rcases List.mem_cons.mp this with he | hm
    · rw [he] at hrk
      simp at hrk
    · exact hm

/-- The grouped monthly totals sum to the total P&L of the table. -/
theorem groupbyMonth_sum (df : List EnrichedTrade) :
    ((groupbyMonth df).map fun g => g.2.2).sum = (df.map fun r => r.pnl).sum := by
  unfold groupbyMonth
  rw [List.map_map]
  have hnd : (((df.map fun r => (r.monthSort, r.month)).dedup).mergeSort
      (fun a b => decide (a.1 < b.1) || (a.1 == b.1 && decide (a.2 ≤ b.2)))).Nodup :=
    (List.mergeSort_perm _ _).symm.nodup (List.nodup_dedup _)
  have hcomp : ∀ r ∈ df, (r.monthSort, r.month) ∈
      ((df.map fun r => (r.monthSort, r.month)).dedup).mergeSort
        (fun a b => decide (a.1 < b.1) || (a.1 == b.1 && decide (a.2 ≤ b.2))) := by
    intro r hr
    rw [List.mem_mergeSort, List.mem_dedup]
    exact List.mem_map.mpr ⟨r, hr, rfl⟩
  exact sum_fiber (fun r => r.pnl) (fun r => (r.monthSort, r.month)) _ df hnd hcomp

/-- The monthly chart rows sum to the total P&L of the table. -/
theorem monthly_df_sum (df : List EnrichedTrade) :
    ((monthly_df df).map fun r => r.pnl).sum = (df.map fun r => r.pnl).sum := by
  unfold monthly_df
  rw [List.map_map]
  have hperm := (npSortBy_perm (fun r : String × String × ℚ => r.1) (groupbyMonth df)).map
    (fun r : String × String × ℚ => r.2.2)
  calc ((npSortBy (fun r : String × String × ℚ => r.1) (groupbyMonth df)).map
        fun r => r.2.2).sum
      = ((groupbyMonth df).map fun r => r.2.2).sum := hperm.sum_eq
    _ = _ := groupbyMonth_sum df

end PipelineFacts

/-! ## Claims -/

section Claims

set_option maxRecDepth 10000 in
/-- C1, counterexample: seventeen same-date trades (one more than numpy's
insertion-sort cutoff) are reordered by `process_dataframe` — the ties do not
keep their source order, because pandas' default `sort_values` kind is
quicksort, which is not stable. -/
theorem C1_counterexample :
    c1Rows.all (fun r => r.date == 0 && pdNormalize r.date == r.date) = true ∧
    (process_dataframe c1Rows 1000).map (fun r => r.symbol) ≠
      c1Rows.map (fun r => r.symbol) := by
  constructor
  · decide
  · decide

/-- C1, amended: the enriched table produced by `process_dataframe` is sorted
by date so that dates are non-decreasing from first to last row; rows with
equal dates may appear in an implementation-defined order. -/
theorem C1_amended (data : List TradeRow) (capital : ℚ) :
    ((process_dataframe data capital).map fun r => r.date).Pairwise (fun a b => a ≤ b) := by
  rw [process_dataframe_map_fst data capital (fun r => r.date) (fun r => r.date)
    (fun _ _ => rfl)]
  exact List.pairwise_map.mpr (npSortBy_sorted (fun r : TradeRow => r.date) _)

/-- C2: every row of the enriched table satisfies
`Equity = startingCapital + Cumulative P&L` exactly. -/
theorem C2_equity (data : List TradeRow) (capital : ℚ) :
    ∀ r ∈ process_dataframe data capital, r.equity = capital + r.cum := by
  intro r hr
  rw [process_dataframe_def] at hr
  obtain ⟨rc, _, rfl⟩ := List.mem_map.mp hr
  rfl

/-- Witness for C2 at a concrete one-trade input. -/
theorem C2_equity_witness :
    ((process_dataframe [rowA] 1000).headI).equity =
      1000 + ((process_dataframe [rowA] 1000).headI).cum :=
  C2_equity [rowA] 1000 _ (headI_mem _ (by decide))

/-- C3: every loaded record's Result is "Win" when its P&L is positive,
"Loss" when negative and "Break Even" when zero, with no other value
possible, and the loader's output is independent of any result-like column of
the source row. -/
theorem C3_result (resp : NotionResponse) (f : Option String → Option String) :
    load_notion_data (mapResultProp f resp) = load_notion_data resp ∧
    ∀ rec ∈ load_notion_data resp,
      rec.result = if rec.pnl > 0 then "Win" else if rec.pnl < 0 then "Loss"
        else "Break Even" := by
  constructor
  · cases resp with
    | failure => rfl
    | noDataSource => rfl
    | ok pages =>
      show ((pages.map fun p => { p with resultProp := f p.resultProp }).filterMap parseRow) =
        pages.filterMap parseRow
      rw [List.filterMap_map]
      have hfun : (parseRow ∘ fun p : NotionPage => { p with resultProp := f p.resultProp }) =
          parseRow := by
        funext p
        cases p
        rfl
      rw [hfun]
  · intro rec hrec
    cases resp with
    | failure => exact absurd hrec (List.not_mem_nil rec)
    | noDataSource => exact absurd hrec (List.not_mem_nil rec)
    | ok pages =>
      obtain ⟨p, _, hp⟩ := List.mem_filterMap.mp hrec
      rcases hpd : p.tradeDate with _ | dr
      · simp [parseRow, hpd] at hp
      · simp [parseRow, hpd] at hp
        rw [← hp]
        exact classifyResult_eq (p.pnlNumber.getD 0)

/-- Witness for C3 at a concrete page carrying a result-like column. -/
theorem C3_result_witness :
    load_notion_data (mapResultProp (fun _ => some "X") (NotionResponse.ok [c3Page])) =
      load_notion_data (NotionResponse.ok [c3Page]) ∧
    c3Rec.result = (if c3Rec.pnl > 0 then "Win" else if c3Rec.pnl < 0 then "Loss"
      else "Break Even") :=
  ⟨(C3_result (NotionResponse.ok [c3Page]) (fun _ => some "X")).1,
   (C3_result (NotionResponse.ok [c3Page]) id).2 c3Rec (by decide)⟩

/-- C4, counterexample: a page whose date-range property is present but has
neither an end nor a start value is not excluded — the loader emits a row
whose date is null. -/
theorem C4_counterexample :
    (load_notion_data (NotionResponse.ok [c4Page])).map (fun r => r.date) = [none] ∧
    (load_notion_data (NotionResponse.ok [c4Page])).length = 1 := by
  exact ⟨rfl, rfl⟩

/-- C4, amended: a row is dropped exactly when its date-range property is
absent or null; when the property is present the loader emits the row with
date `end or start` in Python's truthy sense — preferring a non-empty end,
falling back to start, and possibly null when both are null. -/
theorem C4_amended (pages : List NotionPage) :
    load_notion_data (NotionResponse.ok pages) = pages.filterMap parseRow ∧
    (∀ p : NotionPage, p.tradeDate = none → parseRow p = none) ∧
    (∀ (p : NotionPage) (dr : DateRange), p.tradeDate = some dr →
      ∃ r, parseRow p = some r ∧ r.date = pyOr dr.endDate dr.startDate) := by
  refine ⟨rfl, ?_, ?_⟩
  · intro p hp
    simp [parseRow, hp]
  · intro p dr hp
    refine ⟨{ symbol := resolveSymbol p.nameTitle p.symbolTitle,
              date := pyOr dr.endDate dr.startDate,
              pnl := p.pnlNumber.getD 0,
              result := classifyResult (p.pnlNumber.getD 0) }, ?_, rfl⟩
    simp [parseRow, hp]

/-- Witness for C4: a date-less page is dropped; a page with both start and
end resolves to the end date. -/
theorem C4_amended_witness :
    parseRow ({ nameTitle := none, symbolTitle := none, pnlNumber := none,
                tradeDate := none, resultProp := none }) = none ∧
    ∃ r, parseRow ({ nameTitle := none, symbolTitle := none, pnlNumber := some 5,
                     tradeDate := some ({ startDate := some "2024-01-01",
                                          endDate := some "2024-01-02" }),
                     resultProp := none }) = some r ∧
      r.date = pyOr (some "2024-01-02") (some "2024-01-01") :=
  ⟨(C4_amended []).2.1 _ rfl,
   (C4_amended []).2.2
     ({ nameTitle := none, symbolTitle := none, pnlNumber := some 5,
        tradeDate := some ({ startDate := some "2024-01-01",
                             endDate := some "2024-01-02" }),
        resultProp := none })
     ({ startDate := some "2024-01-01", endDate := some "2024-01-02" }) rfl⟩

/-- C5: the monthly aggregate totals sum to the Cumulative P&L of the last
row of the enriched table. -/
theorem C5_monthly_total (data : List TradeRow) (capital : ℚ) (hne : data ≠ []) :
    ((monthly_df (process_dataframe data capital)).map fun r => r.pnl).sum =
      ((process_dataframe data capital).map fun r => r.cum).getLastD 0 := by
  rw [monthly_df_sum, process_dataframe_map_cum, cumsum_getLastD]
  rw [process_dataframe_map_fst data capital (fun r => r.pnl) (fun r => r.pnl)
    (fun _ _ => rfl)]

/-- Witness for C5 at a concrete one-trade input. -/
theorem C5_monthly_total_witness :
    ((monthly_df (process_dataframe [rowA] 1000)).map fun r => r.pnl).sum =
      ((process_dataframe [rowA] 1000).map fun r => r.cum).getLastD 0 :=
  C5_monthly_total [rowA] 1000 (by decide)

/-- C6, counterexample: a "Name" title whose first text fragment is the empty
string yields the empty symbol, not the "Unknown" default, even though the
available title text is empty. -/
theorem C6_counterexample :
    (load_notion_data (NotionResponse.ok [c6Page])).map (fun r => r.symbol) = [""] ∧
    "" ≠ "Unknown" := by
  exact ⟨rfl, by decide⟩

/-- C6, amended: the symbol is the first text of a non-empty "Name" title
(whatever that text is, including the empty string), else the first text of a
non-empty "Symbol" title, else "Unknown" when both titles are absent or
empty arrays. -/
theorem C6_amended :
    (∀ (p : NotionPage) (r : TradeRecord), parseRow p = some r →
      r.symbol = resolveSymbol p.nameTitle p.symbolTitle) ∧
    (∀ (s : Option (List String)) (t : String) (ts : List String),
      resolveSymbol (some (t :: ts)) s = t) ∧
    (∀ (n : Option (List String)) (t : String) (ts : List String),
      n = none ∨ n = some [] → resolveSymbol n (some (t :: ts)) = t) ∧
    (∀ (n s : Option (List String)), (n = none ∨ n = some []) →
      (s = none ∨ s = some []) → resolveSymbol n s = "Unknown") := by
  refine ⟨?_, ?_, ?_, ?_⟩
  · intro p r hp
    rcases hpd : p.tradeDate with _ | dr
    · simp [parseRow, hpd] at hp
    · simp [parseRow, hpd] at hp
      rw [← hp]
  · intro s t ts
    rfl
  · intro n t ts hn
    rcases hn with h | h <;> rw [h] <;> rfl
  · intro n s hn hs
    rcases hn with h | h <;> rcases hs with h' | h' <;> rw [h, h'] <;> rfl

/-- Witness for C6 at concrete title shapes. -/
theorem C6_amended_witness :
    (load_notion_data (NotionResponse.ok [c6Page])).headI.symbol =
      resolveSymbol c6Page.nameTitle c6Page.symbolTitle ∧
    resolveSymbol (some ["AAPL"]) none = "AAPL" ∧
    resolveSymbol none (some ["TSLA", "x"]) = "TSLA" ∧
    resolveSymbol (some []) none = "Unknown" :=
  ⟨C6_amended.1 c6Page _ (by decide), C6_amended.2.1 none "AAPL" [],
   C6_amended.2.2.1 none "TSLA" ["x"] (Or.inl rfl),
   C6_amended.2.2.2 (some []) none (Or.inr rfl) (Or.inl rfl)⟩

/-- C7, counterexample: in the Daily P&L bar chart a break-even (zero) amount
is rendered in the designated positive color, not in neutral gray. -/
theorem C7_counterexample :
    dailyColors (process_dataframe [rowZ] 1000) = ["#00C805"] ∧
    ("#00C805" : String) ≠ "gray" := by
  exact ⟨rfl, by decide⟩

/-- C7, amended: the bar charts color non-negative amounts (zero included)
with the positive color and strictly negative amounts with the negative
color; only the Win Rate pie maps "Break Even" to neutral gray. -/
theorem C7_amended (df : List EnrichedTrade) (g : List MonthlyRow) (i j : Nat)
    (hi : i < df.length) (hj : j < g.length) :
    (0 ≤ df[i].pnl → (dailyColors df)[i]? = some "#00C805") ∧
    (df[i].pnl < 0 → (dailyColors df)[i]? = some "#FF3B30") ∧
    (0 ≤ g[j].pnl → (monthlyColors g)[j]? = some "#00C805") ∧
    (g[j].pnl < 0 → (monthlyColors g)[j]? = some "#FF3B30") ∧
    winRateColorMap "Win" = some "#00C805" ∧
    winRateColorMap "Loss" = some "#FF3B30" ∧
    winRateColorMap "Break Even" = some "gray" := by
  refine ⟨?_, ?_, ?_, ?_, rfl, rfl, rfl⟩
  · intro h
    unfold dailyColors
    rw [List.getElem?_map, List.getElem?_eq_getElem hi]
    simp [h]
  · intro h
    unfold dailyColors
    rw [List.getElem?_map, List.getElem?_eq_getElem hi]
    simp [not_le.mpr h]
  · intro h
    unfold monthlyColors
    rw [List.getElem?_map, List.getElem?_eq_getElem hj]
    simp [h]
  · intro h
    unfold monthlyColors
    rw [List.getElem?_map, List.getElem?_eq_getElem hj]
    simp [not_le.mpr h]

/-- Witness for C7: the concrete one-trade chart colors. -/
theorem C7_amended_witness :
    (dailyColors (process_dataframe [rowA] 1000))[0]? = some "#00C805" ∧
    winRateColorMap "Break Even" = some "gray" :=
  ⟨(C7_amended (process_dataframe [rowA] 1000)
      [{ monthSort := "1970-01", month := "1970 Jan", pnl := 5, retPct := 0, label := "" }]
      0 0 (by decide) (by decide)).1 (by decide),
   (C7_amended (process_dataframe [rowA] 1000)
      [{ monthSort := "1970-01", month := "1970 Jan", pnl := 5, retPct := 0, label := "" }]
      0 0 (by decide) (by decide)).2.2.2.2.2.2⟩

/-- C8: whenever the loader returns an empty sequence the dashboard shows the
empty-state warning and never invokes the transformer; when it does invoke
the transformer the input has at least one record. -/
theorem C8_empty_guard (resp : NotionResponse) :
    (load_notion_data resp = [] →
      runDashboard resp = Sum.inl "未读取到数据，请检查 Database ID 或 Notion 内容。") ∧
    (∀ t, runDashboard resp = Sum.inr t →
      load_notion_data resp ≠ [] ∧
      t = process_dataframe ((load_notion_data resp).map toRow) initial_capital ∧
      1 ≤ ((load_notion_data resp).map toRow).length) := by
  constructor
  · intro h
    unfold runDashboard
    rw [if_pos h]
  · intro t ht
    unfold runDashboard at ht
    by_cases h : load_notion_data resp = []
    · rw [if_pos h] at ht
      exact absurd ht (by simp)
    · rw [if_neg h] at ht
      injection ht with ht2
      refine ⟨h, ht2.symm, ?_⟩
      rw [List.length_map]
      have := List.length_pos.mpr h
      omega

/-- Witness for C8: a connectivity failure yields the empty-state branch. -/
theorem C8_empty_guard_witness :
    runDashboard NotionResponse.failure =
      Sum.inl "未读取到数据，请检查 Database ID 或 Notion 内容。" :=
  (C8_empty_guard NotionResponse.failure).1 rfl

/-- C9: the enriched table has exactly one row per input record — a
permutation pairing that preserves Symbol, P&L and Result and only normalizes
the Date. -/
theorem C9_frame (data : List TradeRow) (capital : ℚ) :
    ((process_dataframe data capital).map fun r => (r.symbol, r.date, r.pnl, r.result)).Perm
      (data.map fun r => (r.symbol, pdNormalize r.date, r.pnl, r.result)) := by
  rw [process_dataframe_map_fst data capital
    (fun r => (r.symbol, r.date, r.pnl, r.result))
    (fun r => (r.symbol, r.date, r.pnl, r.result)) (fun _ _ => rfl)]
  refine ((npSortBy_perm (fun r : TradeRow => r.date)
    (data.map fun r => { r with date := pdNormalize r.date })).map _).trans ?_
  rw [List.map_map]
  exact List.Perm.refl _

/-- C10: `process_dataframe` truncates dates to midnight before sorting,
cumulative computation and month grouping: pre-normalizing the input changes
nothing, the output dates are all midnights, and any two same-day timestamps
normalize to the same date. -/
theorem C10_normalize (data : List TradeRow) (capital : ℚ) :
    process_dataframe data capital =
      process_dataframe (data.map fun r => { r with date := pdNormalize r.date }) capital ∧
    (∀ r ∈ process_dataframe data capital, pdNormalize r.date = r.date) ∧
    (∀ t1 t2 : Int, t1 / secondsPerDay = t2 / secondsPerDay →
      pdNormalize t1 = pdNormalize t2) := by
  refine ⟨?_, ?_, ?_⟩
  · rw [process_dataframe_def, process_dataframe_def]
    have hmaps : ((data.map fun r => { r with date := pdNormalize r.date }).map
        fun r => { r with date := pdNormalize r.date }) =
        data.map fun r => { r with date := pdNormalize r.date } := by
      rw [List.map_map]
      apply List.map_congr_left
      intro r _
      show ({ r with date := pdNormalize (pdNormalize r.date) } : TradeRow) = _
      rw [pdNormalize_idem]
    rw [hmaps]
  · intro r hr
    rw [process_dataframe_def] at hr
    obtain ⟨rc, hrc, rfl⟩ := List.mem_map.mp hr
    have h1 : rc.1 ∈ npSortBy (fun r : TradeRow => r.date)
        (data.map fun r => { r with date := pdNormalize r.date }) :=
      (List.of_mem_zip hrc).1
    have h2 : rc.1 ∈ data.map fun r => { r with date := pdNormalize r.date } :=
      ((npSortBy_perm _ _).mem_iff).mp h1
    obtain ⟨orig, _, hor⟩ := List.mem_map.mp h2
    show pdNormalize rc.1.date = rc.1.date
    rw [← hor]
    exact pdNormalize_idem orig.date
  · intro t1 t2 h
    unfold pdNormalize
    unfold secondsPerDay at h ⊢
    omega

/-- Witness for C10: the normalized one-trade output and a same-day pair. -/
theorem C10_normalize_witness :
    pdNormalize ((process_dataframe [rowB] 1000).headI).date =
      ((process_dataframe [rowB] 1000).headI).date ∧
    pdNormalize 90000 = pdNormalize 86400 :=
  ⟨(C10_normalize [rowB] 1000).2.1 _ (headI_mem _ (by decide)),
   (C10_normalize [] 0).2.2 90000 86400 (by decide)⟩

end Claims

end TradingJournal
